import Mathlib

/-!
# Verification of the quasiParserGenerator scanner core (`src/scanner.es6`)

This file embeds the data model and operations of `scanner.es6` — the
regex kit, the token model, the segment lexer, the `Packratter`
memoization substrate and the `Scanner` base parser — as executable Lean
definitions, and proves the frozen specification claims about them.

Host regexes (`RegExp`) are modelled by a small regex AST `RE` together
with a matcher `msplits` that enumerates candidate matches in ECMAScript
backtracking priority order (alternation is ordered left-to-right,
quantifiers are greedy, and a repetition iteration that consumes no input
fails, exactly as in the ECMAScript `RepeatMatcher`).  A sticky match at
an offset is the head of that enumeration.
-/

set_option autoImplicit false

namespace QPG

/-- Regex AST.  `cls` is a single-character class, `eps` the empty regex,
`cat` concatenation, `alt` ordered alternation, `star` greedy Kleene star. -/
inductive RE : Type
  | cls (p : Char → Bool)
  | eps
  | cat (a b : RE)
  | alt (a b : RE)
  | star (a : RE)

namespace RE

/-- `a?` (greedy option): try `a` first, then the empty match. -/
def opt (a : RE) : RE := .alt a .eps

/-- `a+`: one occurrence followed by a greedy star. -/
def plus (a : RE) : RE := .cat a (.star a)

end RE

/-- A single literal character. -/
def chr (c : Char) : RE := .cls (fun d => d == c)

/-- Concatenation of a list of regexes. -/
def cats : List RE → RE
  | [] => .eps
  | [r] => r
  | r :: rest => .cat r (cats rest)

/-- Ordered alternation of a nonempty list of regexes (empty list gives
the empty regex, like `RegExp("")`). -/
def altList : List RE → RE
  | [] => .eps
  | [r] => r
  | r :: rest => .alt r (altList rest)

/-- One layer of the match enumerator.  Given `next` to handle the
recursive occurrences of `star` at strictly shorter inputs, produce the
list of possible remaining suffixes after matching `re` against a prefix
of `s`, in ECMAScript backtracking priority order.  A star iteration that
consumes nothing is discarded (the ECMAScript `RepeatMatcher` fails an
iteration whose end index equals its start index). -/
def goStep (next : RE → List Char → List (List Char)) : RE → List Char → List (List Char)
  | .cls _, [] => []
  | .cls p, c :: s => if p c then [s] else []
  | .eps, s => [s]
  | .cat a b, s => (goStep next a s).flatMap (fun s1 => goStep next b s1)
  | .alt a b, s => goStep next a s ++ goStep next b s
  | .star a, s =>
      ((goStep next a s).filter (fun s1 => s1.length < s.length)).flatMap
        (fun s1 => next (.star a) s1) ++ [s]

/-- All candidate matches of `re` against a prefix of `s`, as the list of
remaining suffixes in priority order.  The `Nat` budget bounds the length
of inputs handled by nested star iterations; `msplits s.length re s` is
the complete enumeration, since star iterations strictly shrink the
input. -/
def msplits : Nat → RE → List Char → List (List Char)
  | 0, re, s => goStep (fun _ _ => []) re s
  | n + 1, re, s => goStep (fun re1 s1 => msplits n re1 s1) re s

/-- The sticky match of `re` at the start of `s`: the highest-priority
candidate, returned as the remaining suffix (`none` if no match). -/
def stickyFirst (re : RE) (s : List Char) : Option (List Char) :=
  (msplits s.length re s).head?

/-- Whether `re` can match the empty string (used to show the token regex
always consumes). -/
def nullable : RE → Bool
  | .cls _ => false
  | .eps => true
  | .cat a b => nullable a && nullable b
  | .alt a b => nullable a || nullable b
  | .star _ => true

/-- A host regex, as the source distinguishes them: a `source` string and
its matching behavior (here an AST).  Mirrors the use of
`RE.source` in `anyRE`. -/
structure JSRegExp : Type where
  source : String
  ast : RE

/-- [scanner.es6 l.34] `anyRE(...REs)`: a regex whose source is the
`|`-join of the arguments' sources; it matches if any argument matches,
alternatives tried in order. -/
def anyRE (res : List JSRegExp) : JSRegExp :=
  ⟨String.intercalate "|" (res.map (fun r => r.source)), altList (res.map (fun r => r.ast))⟩

/-- [scanner.es6 l.39] `captureRE(RE)`: wrap in a capture group.  The
group is transparent for matching; since every use wraps the entire
pattern, the group's captured text is the whole match. -/
def captureRE (r : JSRegExp) : JSRegExp :=
  ⟨"(" ++ r.source ++ ")", r.ast⟩

/-- [scanner.es6 l.29] `allRE(RE).test(text)`: anchored match of the
entire string (the `^...$` wrapper). -/
def allREtest (r : JSRegExp) (t : String) : Bool :=
  (msplits t.data.length r.ast t.data).any (fun s1 => s1.isEmpty)

/-! ## The concrete token regexes (scanner.es6 l.14-26) -/

/-- ECMAScript `\s`: WhiteSpace and LineTerminator characters. -/
def isSpaceJS (c : Char) : Bool :=
  c == ' ' || c == '\t' || c == '\n' || c == '\x0b' || c == '\x0c' || c == '\r' ||
  c == ' ' || c.val == 0x1680 ||
  (0x2000 ≤ c.val && c.val ≤ 0x200A) ||
  c.val == 0x2028 || c.val == 0x2029 || c.val == 0x202F || c.val == 0x205F ||
  c.val == 0x3000 || c.val == 0xFEFF

/-- ECMAScript `.`: any character except a LineTerminator. -/
def isDotJS (c : Char) : Bool :=
  !(c == '\n' || c == '\r' || c.val == 0x2028 || c.val == 0x2029)

/-- ECMAScript `\d`. -/
def isDigitJS (c : Char) : Bool := '0' ≤ c && c ≤ '9'

/-- ECMAScript `\w`: `[A-Za-z0-9_]`. -/
def isWordJS (c : Char) : Bool :=
  ('a' ≤ c && c ≤ 'z') || ('A' ≤ c && c ≤ 'Z') || isDigitJS c || c == '_'

/-- Hex digit class `[\da-fA-F]`. -/
def isHexJS (c : Char) : Bool :=
  isDigitJS c || ('a' ≤ c && c ≤ 'f') || ('A' ≤ c && c ≤ 'F')

/-- [l.14] `SPACE_RE` = `\s+`. -/
def SPACE_RE : JSRegExp := ⟨"\\s+", RE.plus (.cls isSpaceJS)⟩

/-- [l.15] `NUMBER_RE` = `-?\d+(?:\.\d+)?(?:[eE]-?\d+)?`. -/
def NUMBER_RE : JSRegExp :=
  ⟨"-?\\d+(?:\\.\\d+)?(?:[eE]-?\\d+)?",
   cats [RE.opt (chr '-'), RE.plus (.cls isDigitJS),
         RE.opt (cats [chr '.', RE.plus (.cls isDigitJS)]),
         RE.opt (cats [.cls (fun c => c == 'e' || c == 'E'), RE.opt (chr '-'),
                       RE.plus (.cls isDigitJS)])]⟩

/-- [l.16] `UCODE_RE` = `\\u[\da-fA-F]{4}`. -/
def UCODE_RE : JSRegExp :=
  ⟨"\\\\u[\\da-fA-F]\x7b4\x7d",
   cats [chr '\\', chr 'u', .cls isHexJS, .cls isHexJS, .cls isHexJS, .cls isHexJS]⟩

/-- [l.18] `CHAR_RE` = `[^\"\\]|\\"|\\\\|\\\/|\\b|\\f|\\n|\\r|\\t|UCODE_RE`. -/
def CHAR_RE : JSRegExp :=
  ⟨"[^\\\"\\\\]|\\\\\"|\\\\\\\\|\\\\\\/|\\\\b|\\\\f|\\\\n|\\\\r|\\\\t|" ++ UCODE_RE.source,
   altList [.cls (fun c => !(c == '"' || c == '\\')),
            cats [chr '\\', chr '"'], cats [chr '\\', chr '\\'], cats [chr '\\', chr '/'],
            cats [chr '\\', chr 'b'], cats [chr '\\', chr 'f'], cats [chr '\\', chr 'n'],
            cats [chr '\\', chr 'r'], cats [chr '\\', chr 't'], UCODE_RE.ast]⟩

/-- [l.19] `STRING_RE` = `\"CHAR_RE*\"`. -/
def STRING_RE : JSRegExp :=
  ⟨"\\\"(?:" ++ CHAR_RE.source ++ ")*\\\"",
   cats [chr '"', .star CHAR_RE.ast, chr '"']⟩

/-- [l.20] `IDENT_RE` = `[a-zA-Z_\$][\w\$]*`. -/
def IDENT_RE : JSRegExp :=
  ⟨"[a-zA-Z_\\$][\\w\\$]*",
   .cat (.cls (fun c => ('a' ≤ c && c ≤ 'z') || ('A' ≤ c && c ≤ 'Z') || c == '_' || c == '$'))
        (.star (.cls (fun c => isWordJS c || c == '$')))⟩

/-- [l.23] `SINGLE_OP` = `[\[\]\(\){},;]`. -/
def SINGLE_OP : JSRegExp :=
  ⟨"[\\[\\]\\(\\)\x7b\x7d,;]",
   .cls (fun c => c == '[' || c == ']' || c == '(' || c == ')' ||
                  c == '\x7b' || c == '\x7d' || c == ',' || c == ';')⟩

/-- [l.24] `MULTI_OP` = `[:~@%&+=*<>.?|\\\-\^\/]+`. -/
def MULTI_OP : JSRegExp :=
  ⟨"[:~@%&+=*<>.?|\\\\\\-\\^\\/]+",
   RE.plus (.cls (fun c => c == ':' || c == '~' || c == '@' || c == '%' || c == '&' ||
                           c == '+' || c == '=' || c == '*' || c == '<' || c == '>' ||
                           c == '.' || c == '?' || c == '|' || c == '\\' || c == '-' ||
                           c == '^' || c == '/'))⟩

/-- [l.25] `LINE_COMMENT_RE` = `#.*\n`. -/
def LINE_COMMENT_RE : JSRegExp :=
  ⟨"#.*\\n", cats [chr '#', .star (.cls isDotJS), chr '\n']⟩

/-- [l.159] `TOKEN_RE`: the capture-grouped alternation of the seven
token productions, in source order. -/
def TOKEN_RE : JSRegExp :=
  captureRE (anyRE [SPACE_RE, NUMBER_RE, STRING_RE, IDENT_RE, SINGLE_OP, MULTI_OP,
                    LINE_COMMENT_RE])

/-! ## Matcher lemmas -/

/-- Every candidate produced by one `goStep` layer is a suffix of the
input, strictly shorter when the regex cannot match empty — provided the
`next` handler itself only produces suffixes. -/
theorem goStep_mem_suffix {next : RE → List Char → List (List Char)}
    (hnext : ∀ re1 s1 s2, s2 ∈ next re1 s1 → s2 <:+ s1) :
    ∀ re s s', s' ∈ goStep next re s →
      s' <:+ s ∧ (nullable re = false → s'.length < s.length) := by
  intro re
  induction re with
  | cls p =>
    intro s s' h
    match s with
    | [] => simp [goStep] at h
    | c :: s2 =>
      simp only [goStep] at h
      by_cases hc : p c
      · simp [hc] at h
        subst h
        exact ⟨⟨[c], rfl⟩, fun _ => by simp⟩
      · simp [hc] at h
  | eps =>
    intro s s' h
    simp only [goStep, List.mem_singleton] at h
    subst h
    exact ⟨List.suffix_refl _, fun hf => by simp [nullable] at hf⟩
  | cat a b iha ihb =>
    intro s s' h
    simp only [goStep, List.mem_flatMap] at h
    obtain ⟨s1, hs1, hs'⟩ := h
    obtain ⟨ha1, ha2⟩ := iha s s1 hs1
    obtain ⟨hb1, hb2⟩ := ihb s1 s' hs'
    refine ⟨hb1.trans ha1, fun hn => ?_⟩
    simp only [nullable, Bool.and_eq_false_iff] at hn
    rcases hn with hn | hn
    · exact Nat.lt_of_le_of_lt hb1.length_le (ha2 hn)
    · exact Nat.lt_of_lt_of_le (hb2 hn) ha1.length_le
  | alt a b iha ihb =>
    intro s s' h
    simp only [goStep, List.mem_append] at h
    rcases h with h | h
    · obtain ⟨h1, h2⟩ := iha s s' h
      refine ⟨h1, fun hn => ?_⟩
      simp only [nullable, Bool.or_eq_false_iff] at hn
      exact h2 hn.1
    · obtain ⟨h1, h2⟩ := ihb s s' h
      refine ⟨h1, fun hn => ?_⟩
      simp only [nullable, Bool.or_eq_false_iff] at hn
      exact h2 hn.2
  | star a iha =>
    intro s s' h
    simp only [goStep, List.mem_append, List.mem_flatMap, List.mem_filter,
      List.mem_singleton] at h
    rcases h with ⟨s1, ⟨hs1, _⟩, hs'⟩ | h
    · obtain ⟨ha1, _⟩ := iha s s1 hs1
      exact ⟨(hnext _ s1 s' hs').trans ha1, fun hn => by simp [nullable] at hn⟩
    · subst h
      exact ⟨List.suffix_refl _, fun hn => by simp [nullable] at hn⟩

/-- Every candidate match leaves a suffix of the input, strictly shorter
when the regex is not nullable. -/
theorem msplits_suffix :
    ∀ n re s s', s' ∈ msplits n re s →
      s' <:+ s ∧ (nullable re = false → s'.length < s.length) := by
  intro n
  induction n with
  | zero =>
    intro re s s' h
    exact goStep_mem_suffix (fun re1 s1 s2 h2 => by simp at h2) re s s' h
  | succ n ih =>
    intro re s s' h
    exact goStep_mem_suffix (fun re1 s1 s2 h2 => (ih re1 s1 s2 h2).1) re s s' h

/-- The sticky match leaves a suffix of the input, strictly shorter when
the regex is not nullable. -/
theorem stickyFirst_suffix {re : RE} {s s' : List Char}
    (h : stickyFirst re s = some s') :
    s' <:+ s ∧ (nullable re = false → s'.length < s.length) := by
  unfold stickyFirst at h
  cases hl : msplits s.length re s with
  | nil => rw [hl] at h; simp at h
  | cons x xs =>
    rw [hl] at h
    simp only [List.head?_cons, Option.some.injEq] at h
    subst h
    exact msplits_suffix s.length re s _ (hl ▸ List.mem_cons_self _ _)

/-- The token regex cannot match the empty string: every token consumes
at least one character. -/
theorem TOKEN_RE_not_nullable : nullable TOKEN_RE.ast = false := rfl

/-! ## Token model and Lexer (scanner.es6 l.78-155) -/

/-- [l.78] A position of a token in a segment of a template:
`(segmentNum, start, after)`. -/
structure Pos : Type where
  segmentNum : Nat
  start : Nat
  after : Nat
deriving DecidableEq

/-- [l.88] A token: raw lexeme text plus its position. -/
structure Token : Type where
  text : String
  pos : Pos
deriving DecidableEq

/-- Errors raised by the lexer.  `unexpected` models the
`Unexpected: ${badTok}` lexical error; `internal` models the
`Internal: ... expected at ...` invariant violation; `divergent` models
the host loop never terminating (a zero-length token match — impossible
for `TOKEN_RE`, which is not nullable). -/
inductive LexErr : Type
  | unexpected (badTok : Token)
  | internal (tok : Token) (expectedIndex : Nat)
  | divergent
deriving DecidableEq

/-- [l.96] The loop body of `Token.tokensInSegment`: `lastIndex` is the
sticky regex position, `expectedIndex` the end of the previous token.
On a match failure (l.104-108) the code reads `RE.lastIndex` AFTER the
failed sticky `exec` has reset it to 0 (ECMAScript sticky semantics,
made explicit by the shim at l.59-68: `this.lastIndex = 0`), so the
`Unexpected` token it builds is `segment.slice(0)` — the whole segment —
at `Pos(segmentNum, 0, segment.length)`, not the slice at the failing
offset.  The `fuel` argument bounds the iteration count (each iteration
consumes at least one character, so `segment.length + 1` suffices);
exhausting it yields `divergent`. -/
def lexLoop (segmentNum : Nat) (segment : List Char) :
    Nat → Nat → Nat → List Token → Except LexErr (List Token)
  | 0, _, _, _ => .error .divergent
  | fuel + 1, expectedIndex, lastIndex, acc =>
    if lastIndex < segment.length then
      match stickyFirst TOKEN_RE.ast (segment.drop lastIndex) with
      | none =>
          .error (.unexpected ⟨String.mk segment, ⟨segmentNum, 0, segment.length⟩⟩)
      | some rest =>
          let text := (segment.drop lastIndex).take
                        ((segment.drop lastIndex).length - rest.length)
          let newLastIndex := lastIndex + text.length
          let actualStart := newLastIndex - text.length
          let tok : Token := ⟨String.mk text, ⟨segmentNum, actualStart, newLastIndex⟩⟩
          if expectedIndex ≠ actualStart then .error (.internal tok expectedIndex)
          else lexLoop segmentNum segment fuel newLastIndex newLastIndex (acc ++ [tok])
    else .ok acc

/-- [l.96] `Token.tokensInSegment(segmentNum, segment, RE)` with the
token regex: lex one segment into tokens, or raise. -/
def tokensInSegment (segmentNum : Nat) (segment : String) : Except LexErr (List Token) :=
  lexLoop segmentNum segment.data (segment.data.length + 1) 0 0 []

/-- The span-chaining invariant the lexer maintains: each token carries
the segment number, starts exactly where the previous token ended, and
ends `text.length` further on. -/
def chainedFrom (segnum : Nat) : Nat → List Token → Bool
  | _, [] => true
  | start, t :: rest =>
    t.pos.segmentNum == segnum && t.pos.start == start &&
      t.pos.after == start + t.text.length && chainedFrom segnum t.pos.after rest

/-- An element of the token stream: a token record or a bare hole
number (the source distinguishes them by `typeof token === 'number'`). -/
inductive Elem : Type
  | tok (t : Token)
  | hole (k : Nat)
deriving DecidableEq

/-- [l.126] `Token.tokensInTemplate(template, RE)`: tokens of each
segment in order, with a bare hole number after each non-final segment. -/
def tokensInTemplateGo : Nat → List String → Except LexErr (List Elem)
  | _, [] => .ok []
  | segnum, seg :: rest =>
    match tokensInSegment segnum seg with
    | .error e => .error e
    | .ok ts =>
      match rest with
      | [] => .ok (ts.map Elem.tok)
      | _ :: _ =>
        match tokensInTemplateGo (segnum + 1) rest with
        | .error e => .error e
        | .ok more => .ok (ts.map Elem.tok ++ Elem.hole segnum :: more)

/-- The template lexer, starting at segment 0. -/
def tokensInTemplate (template : List String) : Except LexErr (List Elem) :=
  tokensInTemplateGo 0 template

/-- The shape of the stream `tokensInTemplate` builds (l.126-136): the
segments' token lists in order, with a hole marker carrying the
preceding segment's index between consecutive segments. -/
def interleaveHoles : Nat → List (List Token) → List Elem
  | _, [] => []
  | k, ts :: rest =>
    match rest with
    | [] => ts.map Elem.tok
    | _ :: _ => ts.map Elem.tok ++ Elem.hole k :: interleaveHoles (k + 1) rest

/-! ## Rule results and memo table (scanner.es6 l.176-263) -/

/-- The value component of a rule result: the `FAIL` and `EOF` sentinels,
token text, a hole number, or a structural list (produced by the
sequence/repetition combinators of compiled rules). -/
inductive RVal : Type
  | FAIL
  | EOF
  | str (s : String)
  | hole (k : Nat)
  | list (vs : List RVal)

/-- Identity test against the `FAIL` sentinel (`v === FAIL`). -/
def isFAIL : RVal → Bool
  | .FAIL => true
  | _ => false

/-- A rule result `[newPos, value]`. -/
abbrev Res := Nat × RVal

/-- The fixed regexes that can serve as terminal patterns (the host uses
object identity of the `RegExp` values; these are the ones the module
defines). -/
inductive NamedRE : Type
  | space
  | number
  | string_
  | ident
  | singleOp
  | multiOp
  | comment
deriving DecidableEq

/-- The `JSRegExp` a `NamedRE` denotes. -/
def reOf : NamedRE → JSRegExp
  | .space => SPACE_RE
  | .number => NUMBER_RE
  | .string_ => STRING_RE
  | .ident => IDENT_RE
  | .singleOp => SINGLE_OP
  | .multiOp => MULTI_OP
  | .comment => LINE_COMMENT_RE

/-- A terminal pattern: a literal string or one of the module's regexes
(`ruleOrPatt` when it is not a function). -/
inductive Patt : Type
  | lit (s : String)
  | reg (r : NamedRE)
deriving DecidableEq

/-- [l.362] The match test `eat` applies to the token at the cursor:
string patterns by equality, regex patterns by anchored match.  (When a
string pattern is unequal the host would also try it as an escaped regex
via `allRE`, which for an escaped literal is the same equality test.) -/
def pattTest : Patt → String → Bool
  | .lit s, t => s == t
  | .reg r, t => allREtest (reOf r) t

/-- [l.221] The printable name of a terminal pattern,
`JSON.stringify('' + ruleOrPatt)`: the quoted literal for strings, the
quoted `/source/` form for regexes (JSON escaping of the quoted body is
elided; names are only compared with each other). -/
def pattName : Patt → String
  | .lit s => "\"" ++ s ++ "\""
  | .reg r => "\"/" ++ (reOf r).source ++ "/\""

/-- A memoization key: a rule (procedure identity, named) or a terminal
pattern. -/
inductive Key : Type
  | rule (name : String)
  | patt (p : Patt)
deriving DecidableEq

/-- A memo-table value: the `LEFT_RECUR` probe sentinel or a stored
result. -/
inductive Entry : Type
  | leftRecur
  | res (r : Res)

/-- Insertion-ordered association list, modelling a JS `Map`:
`alget` is `Map.get`. -/
def alget {α β : Type} [DecidableEq α] : List (α × β) → α → Option β
  | [], _ => none
  | (a, b) :: rest, key => if a = key then some b else alget rest key

/-- `Map.set`: update in place if the key exists, else append. -/
def alset {α β : Type} [DecidableEq α] : List (α × β) → α → β → List (α × β)
  | [], key, v => [(key, v)]
  | (a, b) :: rest, key, v =>
      if a = key then (key, v) :: rest else (a, b) :: alset rest key v

/-- The two-level memo table: outer key a stream position, inner key a
rule-or-pattern. -/
abbrev Memo := List (Nat × List (Key × Entry))

/-- [l.180] The mutable `Packratter` state: `_memo` and `_counts`. -/
structure PState : Type where
  memo : Memo
  hits : Nat
  misses : Nat

/-- [l.190] If the position has no inner map yet, install an empty one. -/
def ensureP (memo : Memo) (pos : Nat) : Memo :=
  match alget memo pos with
  | some _ => memo
  | none => alset memo pos []

/-- Store an entry at `(pos, key)` (`posm.set(ruleOrPatt, ...)`). -/
def setEntry (memo : Memo) (pos : Nat) (key : Key) (e : Entry) : Memo :=
  alset memo pos (alset ((alget memo pos).getD []) key e)

/-- Look up the entry at `(pos, key)`. -/
def memoEntry (memo : Memo) (pos : Nat) (key : Key) : Option Entry :=
  alget ((alget memo pos).getD []) key

/-- [l.177] A fresh substrate: empty memo, zeroed hit/miss counters. -/
def freshState : PState := ⟨[], 0, 0⟩

/-- [l.215] `lastFailures()`: scan the memo, in insertion order, for
non-procedure keys holding a `FAIL` result; track the maximum `newPos`
and the pattern names failing there. -/
def lastFailures (memo : Memo) : Nat × List String :=
  memo.foldl (fun acc pposm =>
    pposm.2.foldl (fun acc2 ke =>
      match ke.1, ke.2 with
      | .patt p, .res (newPos, v) =>
        if isFAIL v then
          if newPos > acc2.1 then (newPos, [pattName p])
          else if newPos = acc2.1 then (acc2.1, acc2.2 ++ [pattName p])
          else acc2
        else acc2
      | _, _ => acc2) acc) (0, [])

/-- The per-entry step of the `lastFailures` scan. -/
def lfStep (acc2 : Nat × List String) (ke : Key × Entry) : Nat × List String :=
  match ke.1, ke.2 with
  | .patt p, .res (newPos, v) =>
    if isFAIL v then
      if newPos > acc2.1 then (newPos, [pattName p])
      else if newPos = acc2.1 then (acc2.1, acc2.2 ++ [pattName p])
      else acc2
    else acc2
  | _, _ => acc2

/-- All memo entries in traversal order (outer insertion order, then
inner insertion order). -/
def memoEntries (memo : Memo) : List (Key × Entry) :=
  memo.flatMap (fun pposm => pposm.2)

/-- The running-maximum step over pattern-keyed FAIL results. -/
def mfpStep (a : Nat) (ke : Key × Entry) : Nat :=
  match ke.1, ke.2 with
  | .patt _, .res (q, v) => if isFAIL v then max a q else a
  | _, _ => a

/-- Largest `newPos` among pattern-keyed FAIL results of a list of
entries, starting from `a`. -/
def mfpL (l : List (Key × Entry)) (a : Nat) : Nat := l.foldl mfpStep a

/-- The printable names of the terminal patterns whose stored result is
a FAIL at position `q`, in traversal order. -/
def pfaL (l : List (Key × Entry)) (q : Nat) : List String :=
  l.filterMap (fun ke =>
    match ke.1, ke.2 with
    | .patt p, .res (qq, v) => if isFAIL v && qq == q then some (pattName p) else none
    | _, _ => none)

/-- The maximum FAIL position `lastFailures` can report. -/
def maxFailPos (memo : Memo) : Nat := mfpL (memoEntries memo) 0

/-- The pattern names failing at `q` in the memo. -/
def patFailsAt (memo : Memo) (q : Nat) : List String := pfaL (memoEntries memo) q

/-! ## Scanner (scanner.es6 l.278-396)

The scanner owns the token stream and the reserved-keyword set.  The
methods that do not touch the memo (`skip`, `rule_SPACE`, `rule_COMMENT`
and the post-skip parts of `eat`, `rule_IDENT`, `rule_HOLE`, `rule_EOF`)
are plain functions here; `rule_SKIP` and `eat` go through the memoized
`run` for `COMMENT` and are part of the state machine `exec` below. -/

/-- The scanner's fixed data: token stream and keyword set. -/
structure Ctx : Type where
  toks : List Elem
  keywords : List String

/-- [l.314] `skip(pos, RE)`: if the token at `pos` exists, is not a hole
and fully matches `RE`, advance by one; else fail at `pos`. -/
def skip (sc : Ctx) (pos : Nat) (r : JSRegExp) : Res :=
  match sc.toks[pos]? with
  | some (.tok t) => if allREtest r t.text then (pos + 1, .str "") else (pos, .FAIL)
  | _ => (pos, .FAIL)

/-- [l.325] `rule_SPACE`. -/
def rule_SPACE (sc : Ctx) (pos : Nat) : Res := skip sc pos SPACE_RE

/-- [l.328] `rule_COMMENT`. -/
def rule_COMMENT (sc : Ctx) (pos : Nat) : Res := skip sc pos LINE_COMMENT_RE

/-- The loop of `rule_SKIP` with the memoized `COMMENT` call replaced by
the direct one — the reference (pure) semantics of `rule_SKIP`.  The
fuel bounds iterations; each successful step advances the position by
one, so `toks.length + 1` suffices from any start. -/
def skipGo (sc : Ctx) : Nat → Nat → Nat
  | 0, pos => pos
  | f + 1, pos =>
    match sc.toks[pos]? with
    | some (.tok _) =>
      if isFAIL (rule_SPACE sc pos).2 then
        if isFAIL (rule_COMMENT sc pos).2 then pos
        else skipGo sc f ((rule_COMMENT sc pos).1)
      else skipGo sc f ((rule_SPACE sc pos).1)
    | _ => pos

/-- Reference semantics of `rule_SKIP(pos)`: the position after skipping
SPACE/COMMENT tokens. -/
def skipPure (sc : Ctx) (pos : Nat) : Nat := skipGo sc (sc.toks.length + 1) pos

/-- [l.357-368] The part of `eat(pos, patt)` after `rule_SKIP` returned
`pos1`.  The destructuring `[pos] = this.rule_SKIP(pos)` on l.358
reassigns `pos`, so `return [pos, FAIL]` on l.368 fails at the
post-SKIP position `pos1`, not at the position `eat` was called with:
accept a matching non-hole token at `pos1`, else fail at `pos1`. -/
def eatAfter (sc : Ctx) (pos1 : Nat) (patt : Patt) : Res :=
  match sc.toks[pos1]? with
  | some (.tok t) => if pattTest patt t.text then (pos1 + 1, .str t.text) else (pos1, .FAIL)
  | _ => (pos1, .FAIL)

/-- [l.374-381] The part of `rule_IDENT` after `rule_SKIP`: an
identifier token that is not a reserved keyword. -/
def identAfter (sc : Ctx) (pos1 : Nat) : Res :=
  match sc.toks[pos1]? with
  | some (.tok t) =>
    if allREtest IDENT_RE t.text && !(sc.keywords.contains t.text) then
      (pos1 + 1, .str t.text)
    else (pos1, .FAIL)
  | _ => (pos1, .FAIL)

/-- [l.385-390] The part of `rule_HOLE` after `rule_SKIP`: a hole marker
yields its own number. -/
def holeAfter (sc : Ctx) (pos1 : Nat) : Res :=
  match sc.toks[pos1]? with
  | some (.hole k) => (pos1 + 1, .hole k)
  | _ => (pos1, .FAIL)

/-- [l.393-394] The part of `rule_EOF` after `rule_SKIP`. -/
def eofAfter (sc : Ctx) (pos1 : Nat) : Res :=
  (pos1, if sc.toks.length ≤ pos1 then .EOF else .FAIL)

/-- Reference semantics of `eat(pos, patt)`. -/
def eatPure (sc : Ctx) (pos : Nat) (patt : Patt) : Res :=
  eatAfter sc (skipPure sc pos) patt

/-- Reference semantics of `rule_NUMBER`. -/
def rule_NUMBER_pure (sc : Ctx) (pos : Nat) : Res := eatPure sc pos (.reg .number)

/-- Reference semantics of `rule_STRING`. -/
def rule_STRING_pure (sc : Ctx) (pos : Nat) : Res := eatPure sc pos (.reg .string_)

/-- Reference semantics of `rule_IDENT`. -/
def rule_IDENT_pure (sc : Ctx) (pos : Nat) : Res := identAfter sc (skipPure sc pos)

/-- Reference semantics of `rule_HOLE`. -/
def rule_HOLE_pure (sc : Ctx) (pos : Nat) : Res := holeAfter sc (skipPure sc pos)

/-- Reference semantics of `rule_EOF`. -/
def rule_EOF_pure (sc : Ctx) (pos : Nat) : Res := eofAfter sc (skipPure sc pos)

/-! ## Grammar rule bodies and the execution machine -/

/-- Modelled from the spec: the rule bodies produced by the BNF compiler
(`bootbnf.es6`, not under `src/`), per spec section 4.6: ordered choice,
sequence, repetition, optional, terminal patterns, and calls to named
rules, all dispatched through the substrate's `run`. -/
inductive PExp : Type
  | term (p : Patt)
  | call (name : String)
  | seq (a b : PExp)
  | choice (a b : PExp)
  | star (a : PExp)
  | opt (a : PExp)

/-- A rule-set: named productions; the first is the start rule. -/
abbrev Grammar := List (String × PExp)

/-- Errors escaping the engine. -/
inductive Err : Type
  | leftRecursion (name : String)
  | ruleMissing (name : String)
  | fuelOut
deriving DecidableEq

/-- The message text of an engine error. -/
def Err.message : Err → String
  | .leftRecursion name => "Left recursion on rule: " ++ name
  | .ruleMissing name => "Rule missing: " ++ name
  | .fuelOut => "fuel exhausted"

/-- The builtin terminal rules `Scanner` provides (callable through
`run` like any rule). -/
def builtinNames : List String :=
  ["SPACE", "COMMENT", "NUMBER", "STRING", "IDENT", "HOLE", "EOF"]

/-- A well-formed rule-set does not shadow the Scanner's builtin rules
(the compiled subclass would override the base `rule_N` methods). -/
def WFG (G : Grammar) : Prop := ∀ p ∈ G, ¬ p.1 ∈ builtinNames

instance (G : Grammar) : Decidable (WFG G) := by
  unfold WFG
  infer_instance

/-- The probe installation of `run` on a memo miss: ensure the inner
map, store `LEFT_RECUR` at `(pos, key)` and count a miss. -/
def probeState (st : PState) (pos : Nat) (key : Key) : PState :=
  ⟨setEntry (ensureP st.memo pos) pos key .leftRecur, st.hits, st.misses + 1⟩

/-- The final step of `run` on a miss: overwrite the probe with the
computed result (`posm.set(ruleOrPatt, result)`). -/
def stored (pos : Nat) (key : Key) : Except Err (Res × PState) → Except Err (Res × PState)
  | .error e => .error e
  | .ok (r, st2) => .ok (r, ⟨setEntry st2.memo pos key (.res r), st2.hits, st2.misses⟩)

/-- Apply the pure post-`rule_SKIP` part of a terminal rule to the
position `rule_SKIP` reached. -/
def afterSkip (k : Nat → Res) : Except Err (Res × PState) → Except Err (Res × PState)
  | .error e => .error e
  | .ok ((p1, _), st2) => .ok (k p1, st2)

/-- A pending activation of the machine: the memoized `run`, the
interpretation of a rule body, a repetition loop, `rule_SKIP`, or
`eat`. -/
inductive CallK : Type
  | runK (key : Key) (name : String) (pos : Nat)
  | interpK (e : PExp) (pos : Nat)
  | starK (a : PExp) (pos : Nat) (acc : List RVal)
  | skipK (pos : Nat)
  | eatK (pos : Nat) (p : Patt)

/-- The execution machine.  `m` enables memo lookups (`m = false` is the
variant in which every probe misses); the `runK` case is a direct
transcription of `Packratter.run` (scanner.es6 l.186-214): ensure the
inner map, look up the key, raise on the `LEFT_RECUR` probe, count a hit
on a stored result, otherwise install the probe, count a miss, dispatch
(procedure bodies through the interpreter, terminal patterns through
`eat`, unknown names raise), and store the result.  The `skipK`/`eatK`
cases transcribe `rule_SKIP`/`eat` (l.338-369), whose `COMMENT` attempts
go through `run`.  The interpreter cases are modelled from the spec
(section 4.6).  Fuel decreases at every step; exhaustion raises
`fuelOut`. -/
def exec : Nat → Bool → Grammar → Ctx → CallK → PState → Except Err (Res × PState)
  | 0, _, _, _, _, _ => .error .fuelOut
  | f + 1, m, G, sc, c, st =>
    match c with
    | .runK key name pos =>
      match (if m then memoEntry (ensureP st.memo pos) pos key else none) with
      | some .leftRecur => .error (.leftRecursion name)
      | some (.res r) => .ok (r, ⟨ensureP st.memo pos, st.hits + 1, st.misses⟩)
      | none =>
        stored pos key
          (match key with
           | .patt p => exec f m G sc (.eatK pos p) (probeState st pos key)
           | .rule n =>
             match alget G n with
             | some body => exec f m G sc (.interpK body pos) (probeState st pos key)
             | none =>
               if n = "SPACE" then .ok (rule_SPACE sc pos, probeState st pos key)
               else if n = "COMMENT" then .ok (rule_COMMENT sc pos, probeState st pos key)
               else if n = "NUMBER" then
                 exec f m G sc (.eatK pos (.reg .number)) (probeState st pos key)
               else if n = "STRING" then
                 exec f m G sc (.eatK pos (.reg .string_)) (probeState st pos key)
               else if n = "IDENT" then
                 afterSkip (identAfter sc) (exec f m G sc (.skipK pos) (probeState st pos key))
               else if n = "HOLE" then
                 afterSkip (holeAfter sc) (exec f m G sc (.skipK pos) (probeState st pos key))
               else if n = "EOF" then
                 afterSkip (eofAfter sc) (exec f m G sc (.skipK pos) (probeState st pos key))
               else .error (.ruleMissing n))
    | .interpK e pos =>
      match e with
      | .term p => exec f m G sc (.runK (.patt p) (pattName p) pos) st
      | .call n => exec f m G sc (.runK (.rule n) n pos) st
      | .seq a b =>
        match exec f m G sc (.interpK a pos) st with
        | .error er => .error er
        | .ok ((p1, v1), st1) =>
          if isFAIL v1 then .ok ((pos, .FAIL), st1)
          else
            match exec f m G sc (.interpK b p1) st1 with
            | .error er => .error er
            | .ok ((p2, v2), st2) =>
              if isFAIL v2 then .ok ((pos, .FAIL), st2)
              else .ok ((p2, .list [v1, v2]), st2)
      | .choice a b =>
        match exec f m G sc (.interpK a pos) st with
        | .error er => .error er
        | .ok ((p1, v1), st1) =>
          if isFAIL v1 then exec f m G sc (.interpK b pos) st1
          else .ok ((p1, v1), st1)
      | .star a => exec f m G sc (.starK a pos []) st
      | .opt a =>
        match exec f m G sc (.interpK a pos) st with
        | .error er => .error er
        | .ok ((p1, v1), st1) =>
          if isFAIL v1 then .ok ((pos, .list []), st1)
          else .ok ((p1, .list [v1]), st1)
    | .starK a pos acc =>
      match exec f m G sc (.interpK a pos) st with
      | .error er => .error er
      | .ok ((p1, v1), st1) =>
        if isFAIL v1 then .ok ((pos, .list acc.reverse), st1)
        else exec f m G sc (.starK a p1 (v1 :: acc)) st1
    | .skipK pos =>
      match sc.toks[pos]? with
      | some (.tok _) =>
        if isFAIL (rule_SPACE sc pos).2 then
          match exec f m G sc (.runK (.rule "COMMENT") "COMMENT" pos) st with
          | .error er => .error er
          | .ok ((pc, vc), st1) =>
            if isFAIL vc then .ok ((pos, .str ""), st1)
            else exec f m G sc (.skipK pc) st1
        else exec f m G sc (.skipK ((rule_SPACE sc pos).1)) st
      | _ => .ok ((pos, .str ""), st)
    | .eatK pos p =>
      match exec f m G sc (.skipK pos) st with
      | .error er => .error er
      | .ok ((p1, _), st1) => .ok (eatAfter sc p1 p, st1)

/-- The pure value a builtin rule produces at a position (`none` for a
non-builtin name). -/
def builtinPure (sc : Ctx) (n : String) (pos : Nat) : Option Res :=
  if n = "SPACE" then some (rule_SPACE sc pos)
  else if n = "COMMENT" then some (rule_COMMENT sc pos)
  else if n = "NUMBER" then some (rule_NUMBER_pure sc pos)
  else if n = "STRING" then some (rule_STRING_pure sc pos)
  else if n = "IDENT" then some (rule_IDENT_pure sc pos)
  else if n = "HOLE" then some (rule_HOLE_pure sc pos)
  else if n = "EOF" then some (rule_EOF_pure sc pos)
  else none

/-- The memo-free reference semantics of the machine: the result each
activation denotes, independent of any substrate state (`none` covers
fuel exhaustion and the error cases). -/
def evalPure : Nat → Grammar → Ctx → CallK → Option Res
  | 0, _, _, _ => none
  | g + 1, G, sc, c =>
    match c with
    | .runK key _ pos =>
      match key with
      | .patt p => evalPure g G sc (.eatK pos p)
      | .rule n =>
        match alget G n with
        | some body => evalPure g G sc (.interpK body pos)
        | none => builtinPure sc n pos
    | .interpK e pos =>
      match e with
      | .term p => evalPure g G sc (.runK (.patt p) (pattName p) pos)
      | .call n => evalPure g G sc (.runK (.rule n) n pos)
      | .seq a b =>
        match evalPure g G sc (.interpK a pos) with
        | none => none
        | some (p1, v1) =>
          if isFAIL v1 then some (pos, .FAIL)
          else
            match evalPure g G sc (.interpK b p1) with
            | none => none
            | some (p2, v2) =>
              if isFAIL v2 then some (pos, .FAIL) else some (p2, .list [v1, v2])
      | .choice a b =>
        match evalPure g G sc (.interpK a pos) with
        | none => none
        | some (p1, v1) =>
          if isFAIL v1 then evalPure g G sc (.interpK b pos) else some (p1, v1)
      | .star a => evalPure g G sc (.starK a pos [])
      | .opt a =>
        match evalPure g G sc (.interpK a pos) with
        | none => none
        | some (p1, v1) =>
          if isFAIL v1 then some (pos, .list []) else some (p1, .list [v1])
    | .starK a pos acc =>
      match evalPure g G sc (.interpK a pos) with
      | none => none
      | some (p1, v1) =>
        if isFAIL v1 then some (pos, .list acc.reverse)
        else evalPure g G sc (.starK a p1 (v1 :: acc))
    | .skipK pos => some (skipPure sc pos, .str "")
    | .eatK pos p => some (eatPure sc pos p)

/-- A substrate state is sound when every stored result equals what the
reference semantics computes for its key. -/
def MemoOK (G : Grammar) (sc : Ctx) (st : PState) : Prop :=
  ∀ pos key r, memoEntry st.memo pos key = some (.res r) →
    ∃ g, evalPure g G sc (.runK key "" pos) = some r

/-- The first production of a rule-set is its start rule. -/
def startName (G : Grammar) : String :=
  match G with
  | [] => ""
  | p :: _ => p.1

/-- A whole parse: invoke the start rule through `run` at position 0 on a
fresh substrate. -/
def parse (m : Bool) (f : Nat) (G : Grammar) (sc : Ctx) : Except Err (Res × PState) :=
  exec f m G sc (.runK (.rule (startName G)) (startName G) 0) freshState

/-- The result of a whole parse, `none` when an error escaped. -/
def parseRes (m : Bool) (f : Nat) (G : Grammar) (sc : Ctx) : Option Res :=
  match parse m f G sc with
  | .ok (r, _) => some r
  | .error _ => none

/-! ## Association-list and memo lemmas -/

theorem alget_alset {α β : Type} [DecidableEq α] :
    ∀ (l : List (α × β)) (a : α) (b : β) (a' : α),
      alget (alset l a b) a' = if a = a' then some b else alget l a' := by
  intro l a b
  induction l with
  | nil =>
    intro a'
    by_cases h : a = a' <;> simp [alset, alget, h]
  | cons hd tl ih =>
    intro a'
    obtain ⟨x, y⟩ := hd
    by_cases hx : x = a
    · subst hx
      simp only [alset, if_pos rfl]
      by_cases h : x = a' <;> simp [alget, h]
    · simp only [alset, if_neg hx]
      by_cases h : x = a'
      · subst h
        have : ¬ a = x := fun hh => hx hh.symm
        simp [alget, this]
      · simp [alget, h, ih a']

theorem memoEntry_setEntry (memo : Memo) (pos : Nat) (key : Key) (e : Entry)
    (pos' : Nat) (key' : Key) :
    memoEntry (setEntry memo pos key e) pos' key' =
      if pos = pos' ∧ key = key' then some e else memoEntry memo pos' key' := by
  unfold memoEntry setEntry
  by_cases hp : pos = pos'
  · subst hp
    by_cases hk : key = key'
    · subst hk
      simp [alget_alset]
    · simp [alget_alset, hk]
  · simp [alget_alset, hp]

theorem memoEntry_ensureP (memo : Memo) (pos : Nat) (pos' : Nat) (key' : Key) :
    memoEntry (ensureP memo pos) pos' key' = memoEntry memo pos' key' := by
  unfold ensureP
  cases hg : alget memo pos with
  | some inner => rfl
  | none =>
    unfold memoEntry
    rw [alget_alset]
    by_cases hp : pos = pos'
    · subst hp
      simp [hg, alget]
    · simp [hp]

/-- The fresh substrate is sound. -/
theorem memoOK_fresh (G : Grammar) (sc : Ctx) : MemoOK G sc freshState := by
  intro pos key r h
  simp [freshState, memoEntry, alget] at h

theorem memoOK_ensureP {G : Grammar} {sc : Ctx} {st : PState} (h : MemoOK G sc st)
    (pos : Nat) (hits misses : Nat) :
    MemoOK G sc ⟨ensureP st.memo pos, hits, misses⟩ := by
  intro pos' key' r hm
  rw [memoEntry_ensureP] at hm
  exact h pos' key' r hm

theorem memoOK_setEntry_leftRecur {G : Grammar} {sc : Ctx} {memo : Memo}
    (h : ∀ pos key r, memoEntry memo pos key = some (.res r) →
      ∃ g, evalPure g G sc (.runK key "" pos) = some r)
    (pos : Nat) (key : Key) (hits misses : Nat) :
    MemoOK G sc ⟨setEntry memo pos key .leftRecur, hits, misses⟩ := by
  intro pos' key' r hm
  rw [memoEntry_setEntry] at hm
  by_cases hc : pos = pos' ∧ key = key'
  · rw [if_pos hc] at hm
    exact absurd hm (by simp)
  · rw [if_neg hc] at hm
    exact h pos' key' r hm

theorem memoOK_setEntry_res {G : Grammar} {sc : Ctx} {memo : Memo}
    (h : ∀ pos key r, memoEntry memo pos key = some (.res r) →
      ∃ g, evalPure g G sc (.runK key "" pos) = some r)
    {pos : Nat} {key : Key} {r : Res}
    (hr : ∃ g, evalPure g G sc (.runK key "" pos) = some r)
    (hits misses : Nat) :
    MemoOK G sc ⟨setEntry memo pos key (.res r), hits, misses⟩ := by
  intro pos' key' r' hm
  rw [memoEntry_setEntry] at hm
  by_cases hc : pos = pos' ∧ key = key'
  · rw [if_pos hc] at hm
    obtain ⟨hc1, hc2⟩ := hc
    subst hc1; subst hc2
    have : r = r' := by
      have := hm
      simp only [Option.some.injEq] at this
      cases this
      rfl
    subst this
    exact hr
  · rw [if_neg hc] at hm
    exact h pos' key' r' hm

/-! ## skip and skipPure lemmas -/

/-- `skip` only ever succeeds by advancing exactly one token over a
matching non-hole token. -/
theorem skip_success {sc : Ctx} {pos : Nat} {r : JSRegExp}
    (h : isFAIL (skip sc pos r).2 = false) :
    (skip sc pos r).1 = pos + 1 ∧
      ∃ t, sc.toks[pos]? = some (.tok t) ∧ allREtest r t.text = true := by
  unfold skip at h ⊢
  cases he : sc.toks[pos]? with
  | none => rw [he] at h; simp [isFAIL] at h
  | some el =>
    cases el with
    | hole k => rw [he] at h; simp [isFAIL] at h
    | tok t =>
      by_cases ht : allREtest r t.text
      · exact ⟨by simp [ht], t, rfl, ht⟩
      · rw [he] at h; simp [ht, isFAIL] at h

/-- `rule_SPACE` success form. -/
theorem rule_SPACE_success {sc : Ctx} {pos : Nat}
    (h : isFAIL (rule_SPACE sc pos).2 = false) :
    (rule_SPACE sc pos).1 = pos + 1 ∧
      ∃ t, sc.toks[pos]? = some (.tok t) ∧ allREtest SPACE_RE t.text = true :=
  skip_success h

/-- `rule_COMMENT` success form. -/
theorem rule_COMMENT_success {sc : Ctx} {pos : Nat}
    (h : isFAIL (rule_COMMENT sc pos).2 = false) :
    (rule_COMMENT sc pos).1 = pos + 1 ∧
      ∃ t, sc.toks[pos]? = some (.tok t) ∧ allREtest LINE_COMMENT_RE t.text = true :=
  skip_success h

/-- Beyond the end of the stream `skipGo` is the identity. -/
theorem skipGo_ge {sc : Ctx} (f pos : Nat) (h : sc.toks.length ≤ pos) :
    skipGo sc f pos = pos := by
  cases f with
  | zero => rfl
  | succ f =>
    unfold skipGo
    rw [List.getElem?_eq_none h]

/-- `skipGo` does not depend on the fuel once the fuel exceeds the
remaining stream length. -/
theorem skipGo_fuel {sc : Ctx} :
    ∀ f1 f2 pos, sc.toks.length < f1 + pos → sc.toks.length < f2 + pos →
      skipGo sc f1 pos = skipGo sc f2 pos := by
  intro f1
  induction f1 with
  | zero =>
    intro f2 pos h1 h2
    rw [skipGo_ge f2 pos (by omega)]
    rfl
  | succ f1 ih =>
    intro f2 pos h1 h2
    cases f2 with
    | zero =>
      rw [skipGo_ge (f1 + 1) pos (by omega)]
      rfl
    | succ f2 =>
      unfold skipGo
      cases he : sc.toks[pos]? with
      | none => rfl
      | some el =>
        cases el with
        | hole k => rfl
        | tok t =>
          simp only []
          cases hs : isFAIL (rule_SPACE sc pos).2 with
          | false =>
            have hss := rule_SPACE_success hs
            simp only [hs, Bool.false_eq_true, if_false, hss.1]
            exact ih f2 (pos + 1) (by omega) (by omega)
          | true =>
            cases hc : isFAIL (rule_COMMENT sc pos).2 with
            | false =>
              have hcs := rule_COMMENT_success hc
              simp only [hs, hc, Bool.false_eq_true, if_false, if_true, hcs.1]
              exact ih f2 (pos + 1) (by omega) (by omega)
            | true => simp [hs, hc]

/-- `skipPure` one-step unfolding. -/
theorem skipPure_unfold (sc : Ctx) (pos : Nat) :
    skipPure sc pos =
      match sc.toks[pos]? with
      | some (.tok _) =>
        if isFAIL (rule_SPACE sc pos).2 then
          if isFAIL (rule_COMMENT sc pos).2 then pos
          else skipPure sc ((rule_COMMENT sc pos).1)
        else skipPure sc ((rule_SPACE sc pos).1)
      | _ => pos := by
  unfold skipPure
  conv =>
    lhs
    unfold skipGo
  cases he : sc.toks[pos]? with
  | none => rfl
  | some el =>
    cases el with
    | hole k => rfl
    | tok t =>
      simp only []
      cases hs : isFAIL (rule_SPACE sc pos).2 with
      | false =>
        have hss := rule_SPACE_success hs
        simp only [hs, Bool.false_eq_true, if_false, hss.1]
        have hp : pos < sc.toks.length := by
          obtain ⟨t1, ht1, _⟩ := hss.2
          exact (List.getElem?_eq_some_iff.mp ht1).1
        exact skipGo_fuel _ _ _ (by omega) (by omega)
      | true =>
        cases hc : isFAIL (rule_COMMENT sc pos).2 with
        | false =>
          have hcs := rule_COMMENT_success hc
          simp only [hs, hc, Bool.false_eq_true, if_false, if_true, hcs.1]
          have hp : pos < sc.toks.length := by
            obtain ⟨t1, ht1, _⟩ := hcs.2
            exact (List.getElem?_eq_some_iff.mp ht1).1
          exact skipGo_fuel _ _ _ (by omega) (by omega)
        | true => simp [hs, hc]

/-! ## evalPure lemmas -/

/-- The reference semantics ignores the display name of a `run`
activation. -/
theorem evalPure_name (g : Nat) (G : Grammar) (sc : Ctx) (key : Key)
    (n1 n2 : String) (pos : Nat) :
    evalPure g G sc (.runK key n1 pos) = evalPure g G sc (.runK key n2 pos) := by
  cases g <;> rfl

/-- One-step equations for `evalPure` (controlled unfolding). -/
theorem evalPure_runK_patt (g : Nat) (G : Grammar) (sc : Ctx) (p : Patt)
    (name : String) (pos : Nat) :
    evalPure (g + 1) G sc (.runK (.patt p) name pos) = evalPure g G sc (.eatK pos p) := rfl

theorem evalPure_runK_rule (g : Nat) (G : Grammar) (sc : Ctx) (n : String)
    (name : String) (pos : Nat) :
    evalPure (g + 1) G sc (.runK (.rule n) name pos) =
      (match alget G n with
       | some body => evalPure g G sc (.interpK body pos)
       | none => builtinPure sc n pos) := rfl

theorem evalPure_term (g : Nat) (G : Grammar) (sc : Ctx) (p : Patt) (pos : Nat) :
    evalPure (g + 1) G sc (.interpK (.term p) pos) =
      evalPure g G sc (.runK (.patt p) (pattName p) pos) := rfl

theorem evalPure_call (g : Nat) (G : Grammar) (sc : Ctx) (n : String) (pos : Nat) :
    evalPure (g + 1) G sc (.interpK (.call n) pos) =
      evalPure g G sc (.runK (.rule n) n pos) := rfl

theorem evalPure_seq (g : Nat) (G : Grammar) (sc : Ctx) (a b : PExp) (pos : Nat) :
    evalPure (g + 1) G sc (.interpK (.seq a b) pos) =
      (match evalPure g G sc (.interpK a pos) with
       | none => none
       | some (p1, v1) =>
         if isFAIL v1 then some (pos, .FAIL)
         else
           match evalPure g G sc (.interpK b p1) with
           | none => none
           | some (p2, v2) =>
             if isFAIL v2 then some (pos, .FAIL) else some (p2, .list [v1, v2])) := rfl

theorem evalPure_choice (g : Nat) (G : Grammar) (sc : Ctx) (a b : PExp) (pos : Nat) :
    evalPure (g + 1) G sc (.interpK (.choice a b) pos) =
      (match evalPure g G sc (.interpK a pos) with
       | none => none
       | some (p1, v1) =>
         if isFAIL v1 then evalPure g G sc (.interpK b pos) else some (p1, v1)) := rfl

theorem evalPure_starE (g : Nat) (G : Grammar) (sc : Ctx) (a : PExp) (pos : Nat) :
    evalPure (g + 1) G sc (.interpK (.star a) pos) =
      evalPure g G sc (.starK a pos []) := rfl

theorem evalPure_optE (g : Nat) (G : Grammar) (sc : Ctx) (a : PExp) (pos : Nat) :
    evalPure (g + 1) G sc (.interpK (.opt a) pos) =
      (match evalPure g G sc (.interpK a pos) with
       | none => none
       | some (p1, v1) =>
         if isFAIL v1 then some (pos, .list []) else some (p1, .list [v1])) := rfl

theorem evalPure_starK (g : Nat) (G : Grammar) (sc : Ctx) (a : PExp) (pos : Nat)
    (acc : List RVal) :
    evalPure (g + 1) G sc (.starK a pos acc) =
      (match evalPure g G sc (.interpK a pos) with
       | none => none
       | some (p1, v1) =>
         if isFAIL v1 then some (pos, .list acc.reverse)
         else evalPure g G sc (.starK a p1 (v1 :: acc))) := rfl

theorem evalPure_skipK (g : Nat) (G : Grammar) (sc : Ctx) (pos : Nat) :
    evalPure (g + 1) G sc (.skipK pos) = some (skipPure sc pos, .str "") := rfl

theorem evalPure_eatK (g : Nat) (G : Grammar) (sc : Ctx) (pos : Nat) (p : Patt) :
    evalPure (g + 1) G sc (.eatK pos p) = some (eatPure sc pos p) := rfl

/-- More fuel never changes an already-produced reference result. -/
theorem evalPure_mono :
    ∀ g (G : Grammar) (sc : Ctx) (c : CallK) (r : Res),
      evalPure g G sc c = some r → evalPure (g + 1) G sc c = some r := by
  intro g
  induction g with
  | zero => intro G sc c r h; simp [evalPure] at h
  | succ g ih =>
    intro G sc c r h
    match c with
    | .runK key name pos =>
      cases key with
      | patt p =>
        rw [evalPure_runK_patt] at h ⊢
        exact ih G sc _ r h
      | rule n =>
        rw [evalPure_runK_rule] at h ⊢
        cases hG : alget G n with
        | some body => rw [hG] at h; exact ih G sc _ r h
        | none => rw [hG] at h; exact h
    | .interpK e pos =>
      cases e with
      | term p => rw [evalPure_term] at h ⊢; exact ih G sc _ r h
      | call n => rw [evalPure_call] at h ⊢; exact ih G sc _ r h
      | seq a b =>
        rw [evalPure_seq] at h ⊢
        cases h1 : evalPure g G sc (.interpK a pos) with
        | none => rw [h1] at h; exact absurd h (by simp)
        | some r1 =>
          obtain ⟨p1, v1⟩ := r1
          rw [h1] at h
          rw [ih G sc _ _ h1]
          dsimp only [] at h ⊢
          cases hf : isFAIL v1 with
          | true => simpa [hf] using h
          | false =>
            simp only [hf, Bool.false_eq_true, if_false] at h ⊢
            cases h2 : evalPure g G sc (.interpK b p1) with
            | none => rw [h2] at h; exact absurd h (by simp)
            | some r2 =>
              rw [h2] at h
              rw [ih G sc _ _ h2]
              exact h
      | choice a b =>
        rw [evalPure_choice] at h ⊢
        cases h1 : evalPure g G sc (.interpK a pos) with
        | none => rw [h1] at h; exact absurd h (by simp)
        | some r1 =>
          obtain ⟨p1, v1⟩ := r1
          rw [h1] at h
          rw [ih G sc _ _ h1]
          dsimp only [] at h ⊢
          cases hf : isFAIL v1 with
          | true =>
            simp only [hf, if_true] at h ⊢
            exact ih G sc _ r h
          | false => simpa [hf] using h
      | star a =>
        rw [evalPure_starE] at h ⊢
        exact ih G sc _ r h
      | opt a =>
        rw [evalPure_optE] at h ⊢
        cases h1 : evalPure g G sc (.interpK a pos) with
        | none => rw [h1] at h; exact absurd h (by simp)
        | some r1 =>
          obtain ⟨p1, v1⟩ := r1
          rw [h1] at h
          rw [ih G sc _ _ h1]
          exact h
    | .starK a pos acc =>
      rw [evalPure_starK] at h ⊢
      cases h1 : evalPure g G sc (.interpK a pos) with
      | none => rw [h1] at h; exact absurd h (by simp)
      | some r1 =>
        obtain ⟨p1, v1⟩ := r1
        rw [h1] at h
        rw [ih G sc _ _ h1]
        dsimp only [] at h ⊢
        cases hf : isFAIL v1 with
        | true => simpa [hf] using h
        | false =>
          simp only [hf, Bool.false_eq_true, if_false] at h ⊢
          exact ih G sc _ r h
    | .skipK pos => exact h
    | .eatK pos p => exact h

/-- Fuel monotonicity, `≤` form. -/
theorem evalPure_mono_le {g g' : Nat} {G : Grammar} {sc : Ctx} {c : CallK} {r : Res}
    (hle : g ≤ g') (h : evalPure g G sc c = some r) : evalPure g' G sc c = some r := by
  induction g' with
  | zero =>
    have : g = 0 := Nat.le_zero.mp hle
    subst this
    exact h
  | succ g' ih =>
    rcases Nat.lt_or_ge g (g' + 1) with hlt | hge
    · exact evalPure_mono g' G sc c r (ih (by omega))
    · have : g = g' + 1 := by omega
      subst this
      exact h

/-! ## exec equations and helper lemmas -/

theorem exec_zero (m : Bool) (G : Grammar) (sc : Ctx) (c : CallK) (st : PState) :
    exec 0 m G sc c st = .error .fuelOut := rfl

theorem exec_runK (f : Nat) (m : Bool) (G : Grammar) (sc : Ctx) (key : Key)
    (name : String) (pos : Nat) (st : PState) :
    exec (f + 1) m G sc (.runK key name pos) st =
      (match (if m then memoEntry (ensureP st.memo pos) pos key else none) with
       | some .leftRecur => .error (.leftRecursion name)
       | some (.res r) => .ok (r, ⟨ensureP st.memo pos, st.hits + 1, st.misses⟩)
       | none =>
         stored pos key
           (match key with
            | .patt p => exec f m G sc (.eatK pos p) (probeState st pos key)
            | .rule n =>
              match alget G n with
              | some body => exec f m G sc (.interpK body pos) (probeState st pos key)
              | none =>
                if n = "SPACE" then .ok (rule_SPACE sc pos, probeState st pos key)
                else if n = "COMMENT" then .ok (rule_COMMENT sc pos, probeState st pos key)
                else if n = "NUMBER" then
                  exec f m G sc (.eatK pos (.reg .number)) (probeState st pos key)
                else if n = "STRING" then
                  exec f m G sc (.eatK pos (.reg .string_)) (probeState st pos key)
                else if n = "IDENT" then
                  afterSkip (identAfter sc) (exec f m G sc (.skipK pos) (probeState st pos key))
                else if n = "HOLE" then
                  afterSkip (holeAfter sc) (exec f m G sc (.skipK pos) (probeState st pos key))
                else if n = "EOF" then
                  afterSkip (eofAfter sc) (exec f m G sc (.skipK pos) (probeState st pos key))
                else .error (.ruleMissing n))) := rfl

theorem exec_term (f : Nat) (m : Bool) (G : Grammar) (sc : Ctx) (p : Patt)
    (pos : Nat) (st : PState) :
    exec (f + 1) m G sc (.interpK (.term p) pos) st =
      exec f m G sc (.runK (.patt p) (pattName p) pos) st := rfl

theorem exec_call (f : Nat) (m : Bool) (G : Grammar) (sc : Ctx) (n : String)
    (pos : Nat) (st : PState) :
    exec (f + 1) m G sc (.interpK (.call n) pos) st =
      exec f m G sc (.runK (.rule n) n pos) st := rfl

theorem exec_seq (f : Nat) (m : Bool) (G : Grammar) (sc : Ctx) (a b : PExp)
    (pos : Nat) (st : PState) :
    exec (f + 1) m G sc (.interpK (.seq a b) pos) st =
      (match exec f m G sc (.interpK a pos) st with
       | .error er => .error er
       | .ok ((p1, v1), st1) =>
         if isFAIL v1 then .ok ((pos, .FAIL), st1)
         else
           match exec f m G sc (.interpK b p1) st1 with
           | .error er => .error er
           | .ok ((p2, v2), st2) =>
             if isFAIL v2 then .ok ((pos, .FAIL), st2)
             else .ok ((p2, .list [v1, v2]), st2)) := rfl

theorem exec_choice (f : Nat) (m : Bool) (G : Grammar) (sc : Ctx) (a b : PExp)
    (pos : Nat) (st : PState) :
    exec (f + 1) m G sc (.interpK (.choice a b) pos) st =
      (match exec f m G sc (.interpK a pos) st with
       | .error er => .error er
       | .ok ((p1, v1), st1) =>
         if isFAIL v1 then exec f m G sc (.interpK b pos) st1
         else .ok ((p1, v1), st1)) := rfl

theorem exec_starE (f : Nat) (m : Bool) (G : Grammar) (sc : Ctx) (a : PExp)
    (pos : Nat) (st : PState) :
    exec (f + 1) m G sc (.interpK (.star a) pos) st =
      exec f m G sc (.starK a pos []) st := rfl

theorem exec_optE (f : Nat) (m : Bool) (G : Grammar) (sc : Ctx) (a : PExp)
    (pos : Nat) (st : PState) :
    exec (f + 1) m G sc (.interpK (.opt a) pos) st =
      (match exec f m G sc (.interpK a pos) st with
       | .error er => .error er
       | .ok ((p1, v1), st1) =>
         if isFAIL v1 then .ok ((pos, .list []), st1)
         else .ok ((p1, .list [v1]), st1)) := rfl

theorem exec_starK (f : Nat) (m : Bool) (G : Grammar) (sc : Ctx) (a : PExp)
    (pos : Nat) (acc : List RVal) (st : PState) :
    exec (f + 1) m G sc (.starK a pos acc) st =
      (match exec f m G sc (.interpK a pos) st with
       | .error er => .error er
       | .ok ((p1, v1), st1) =>
         if isFAIL v1 then .ok ((pos, .list acc.reverse), st1)
         else exec f m G sc (.starK a p1 (v1 :: acc)) st1) := rfl

theorem exec_skipK (f : Nat) (m : Bool) (G : Grammar) (sc : Ctx)
    (pos : Nat) (st : PState) :
    exec (f + 1) m G sc (.skipK pos) st =
      (match sc.toks[pos]? with
       | some (.tok _) =>
         if isFAIL (rule_SPACE sc pos).2 then
           match exec f m G sc (.runK (.rule "COMMENT") "COMMENT" pos) st with
           | .error er => .error er
           | .ok ((pc, vc), st1) =>
             if isFAIL vc then .ok ((pos, .str ""), st1)
             else exec f m G sc (.skipK pc) st1
         else exec f m G sc (.skipK ((rule_SPACE sc pos).1)) st
       | _ => .ok ((pos, .str ""), st)) := rfl

theorem exec_eatK (f : Nat) (m : Bool) (G : Grammar) (sc : Ctx)
    (pos : Nat) (p : Patt) (st : PState) :
    exec (f + 1) m G sc (.eatK pos p) st =
      (match exec f m G sc (.skipK pos) st with
       | .error er => .error er
       | .ok ((p1, _), st1) => .ok (eatAfter sc p1 p, st1)) := rfl

/-- Installing a probe preserves memo soundness. -/
theorem memoOK_probe {G : Grammar} {sc : Ctx} {st : PState} (h : MemoOK G sc st)
    (pos : Nat) (key : Key) : MemoOK G sc (probeState st pos key) :=
  memoOK_setEntry_leftRecur (memoOK_ensureP h pos 0 0) pos key st.hits (st.misses + 1)

/-- A well-formed rule-set never defines a builtin name. -/
theorem WFG_alget_none {G : Grammar} (hwf : WFG G) {n : String}
    (hn : n ∈ builtinNames) : alget G n = none := by
  induction G with
  | nil => rfl
  | cons p rest ih =>
    unfold alget
    obtain ⟨a, b⟩ := p
    have ha : ¬ a ∈ builtinNames := hwf (a, b) (List.mem_cons_self _ _)
    have hne : ¬ a = n := fun hh => ha (hh ▸ hn)
    rw [if_neg hne]
    exact ih (fun q hq => hwf q (List.mem_cons_of_mem _ hq))

theorem comment_mem_builtin : ("COMMENT" : String) ∈ builtinNames := by
  unfold builtinNames
  simp

theorem builtinPure_SPACE (sc : Ctx) (pos : Nat) :
    builtinPure sc "SPACE" pos = some (rule_SPACE sc pos) := rfl

theorem builtinPure_COMMENT (sc : Ctx) (pos : Nat) :
    builtinPure sc "COMMENT" pos = some (rule_COMMENT sc pos) := rfl

theorem builtinPure_NUMBER (sc : Ctx) (pos : Nat) :
    builtinPure sc "NUMBER" pos = some (rule_NUMBER_pure sc pos) := rfl

theorem builtinPure_STRING (sc : Ctx) (pos : Nat) :
    builtinPure sc "STRING" pos = some (rule_STRING_pure sc pos) := rfl

theorem builtinPure_IDENT (sc : Ctx) (pos : Nat) :
    builtinPure sc "IDENT" pos = some (rule_IDENT_pure sc pos) := rfl

theorem builtinPure_HOLE (sc : Ctx) (pos : Nat) :
    builtinPure sc "HOLE" pos = some (rule_HOLE_pure sc pos) := rfl

theorem builtinPure_EOF (sc : Ctx) (pos : Nat) :
    builtinPure sc "EOF" pos = some (rule_EOF_pure sc pos) := rfl

/-- Injectivity helper for machine results. -/
theorem ok_pair_inj {r0 r : Res} {st0 st' : PState}
    (h : (.ok (r0, st0) : Except Err (Res × PState)) = .ok (r, st')) :
    r = r0 ∧ st' = st0 := by
  injection h with h1
  exact ⟨(congrArg Prod.fst h1).symm, (congrArg Prod.snd h1).symm⟩

/-- Injectivity helper for reference results. -/
theorem some_pair_inj {p1 q : Nat} {v1 w : RVal}
    (h : (some (q, w) : Option Res) = some (p1, v1)) : p1 = q ∧ v1 = w := by
  injection h with h1
  exact ⟨(congrArg Prod.fst h1).symm, (congrArg Prod.snd h1).symm⟩

/-- Soundness of the machine against the reference semantics: from a
sound substrate, a completed activation returns exactly the reference
result and leaves the substrate sound.  This covers both the memoizing
machine (`m = true`) and the probe-always-misses variant (`m = false`). -/
theorem exec_sound :
    ∀ f (m : Bool) (G : Grammar) (sc : Ctx) (c : CallK) (st : PState) (r : Res)
      (st' : PState), WFG G → MemoOK G sc st →
      exec f m G sc c st = .ok (r, st') →
      MemoOK G sc st' ∧ ∃ g, evalPure (g + 1) G sc c = some r := by
  intro f
  induction f with
  | zero =>
    intro m G sc c st r st' _ _ h
    rw [exec_zero] at h
    exact Except.noConfusion h
  | succ f ih =>
    intro m G sc c st r st' hwf hmo h
    match c with
    | .runK key name pos =>
      rw [exec_runK] at h
      cases hm0 : (if m then memoEntry (ensureP st.memo pos) pos key else none) with
      | some e =>
        cases e with
        | leftRecur => rw [hm0] at h; exact Except.noConfusion h
        | res r0 =>
          rw [hm0] at h
          obtain ⟨hr, hst⟩ := ok_pair_inj h
          subst hr
          subst hst
          refine ⟨memoOK_ensureP hmo pos _ _, ?_⟩
          have hmem : memoEntry st.memo pos key = some (.res r) := by
            cases m with
            | false => simp at hm0
            | true =>
              simp only [if_true] at hm0
              rw [memoEntry_ensureP] at hm0
              exact hm0
          obtain ⟨g, hg⟩ := hmo pos key r hmem
          refine ⟨g, ?_⟩
          rw [evalPure_name (g + 1) G sc key name "" pos]
          exact evalPure_mono g G sc _ _ hg
      | none =>
        rw [hm0] at h
        cases key with
        | patt p =>
          dsimp only [] at h
          cases hsub : exec f m G sc (.eatK pos p) (probeState st pos (.patt p)) with
          | error e =>
            rw [hsub] at h
            exact Except.noConfusion h
          | ok rs =>
            obtain ⟨r2, st2⟩ := rs
            rw [hsub] at h
            dsimp only [stored] at h
            obtain ⟨hr, hst⟩ := ok_pair_inj h
            subst hr
            subst hst
            obtain ⟨hst2, g, hg⟩ := ih m G sc _ _ _ _ hwf (memoOK_probe hmo pos _) hsub
            refine ⟨memoOK_setEntry_res hst2 ⟨g + 1 + 1, ?_⟩ _ _, g + 1, ?_⟩
            · rw [evalPure_runK_patt]
              exact hg
            · rw [evalPure_runK_patt]
              exact hg
        | rule n =>
          dsimp only [] at h
          cases hG : alget G n with
          | some body =>
            rw [hG] at h
            dsimp only [] at h
            cases hsub : exec f m G sc (.interpK body pos) (probeState st pos (.rule n)) with
            | error e =>
              rw [hsub] at h
              exact Except.noConfusion h
            | ok rs =>
              obtain ⟨r2, st2⟩ := rs
              rw [hsub] at h
              dsimp only [stored] at h
              obtain ⟨hr, hst⟩ := ok_pair_inj h
              subst hr
              subst hst
              obtain ⟨hst2, g, hg⟩ := ih m G sc _ _ _ _ hwf (memoOK_probe hmo pos _) hsub
              refine ⟨memoOK_setEntry_res hst2 ⟨g + 1 + 1, ?_⟩ _ _, g + 1, ?_⟩
              · rw [evalPure_runK_rule, hG]
                exact hg
              · rw [evalPure_runK_rule, hG]
                exact hg
          | none =>
            rw [hG] at h
            dsimp only [] at h
            by_cases hn1 : n = "SPACE"
            · rw [if_pos hn1] at h
              dsimp only [stored] at h
              obtain ⟨hr, hst⟩ := ok_pair_inj h
              subst hr
              subst hst
              subst hn1
              refine ⟨memoOK_setEntry_res (memoOK_probe hmo pos _) ⟨1, ?_⟩ _ _, 0, ?_⟩
              · rw [evalPure_runK_rule, hG, builtinPure_SPACE]
              · rw [evalPure_runK_rule, hG, builtinPure_SPACE]
            · rw [if_neg hn1] at h
              by_cases hn2 : n = "COMMENT"
              · rw [if_pos hn2] at h
                dsimp only [stored] at h
                obtain ⟨hr, hst⟩ := ok_pair_inj h
                subst hr
                subst hst
                subst hn2
                refine ⟨memoOK_setEntry_res (memoOK_probe hmo pos _) ⟨1, ?_⟩ _ _, 0, ?_⟩
                · rw [evalPure_runK_rule, hG, builtinPure_COMMENT]
                · rw [evalPure_runK_rule, hG, builtinPure_COMMENT]
              · rw [if_neg hn2] at h
                by_cases hn3 : n = "NUMBER"
                · rw [if_pos hn3] at h
                  cases hsub : exec f m G sc (.eatK pos (.reg .number)) (probeState st pos (.rule n)) with
                  | error e =>
                    rw [hsub] at h
                    exact Except.noConfusion h
                  | ok rs =>
                    obtain ⟨r2, st2⟩ := rs
                    rw [hsub] at h
                    dsimp only [stored] at h
                    obtain ⟨hr, hst⟩ := ok_pair_inj h
                    subst hr
                    subst hst
                    obtain ⟨hst2, g, hg⟩ := ih m G sc _ _ _ _ hwf (memoOK_probe hmo pos _) hsub
                    rw [evalPure_eatK] at hg
                    subst hn3
                    refine ⟨memoOK_setEntry_res hst2 ⟨1, ?_⟩ _ _, 0, ?_⟩
                    · rw [evalPure_runK_rule, hG, builtinPure_NUMBER]
                      exact hg
                    · rw [evalPure_runK_rule, hG, builtinPure_NUMBER]
                      exact hg
                · rw [if_neg hn3] at h
                  by_cases hn4 : n = "STRING"
                  · rw [if_pos hn4] at h
                    cases hsub : exec f m G sc (.eatK pos (.reg .string_)) (probeState st pos (.rule n)) with
                    | error e =>
                      rw [hsub] at h
                      exact Except.noConfusion h
                    | ok rs =>
                      obtain ⟨r2, st2⟩ := rs
                      rw [hsub] at h
                      dsimp only [stored] at h
                      obtain ⟨hr, hst⟩ := ok_pair_inj h
                      subst hr
                      subst hst
                      obtain ⟨hst2, g, hg⟩ := ih m G sc _ _ _ _ hwf (memoOK_probe hmo pos _) hsub
                      rw [evalPure_eatK] at hg
                      subst hn4
                      refine ⟨memoOK_setEntry_res hst2 ⟨1, ?_⟩ _ _, 0, ?_⟩
                      · rw [evalPure_runK_rule, hG, builtinPure_STRING]
                        exact hg
                      · rw [evalPure_runK_rule, hG, builtinPure_STRING]
                        exact hg
                  · rw [if_neg hn4] at h
                    by_cases hn5 : n = "IDENT"
                    · rw [if_pos hn5] at h
                      cases hskip : exec f m G sc (.skipK pos) (probeState st pos (.rule n)) with
                      | error e =>
                        rw [hskip] at h
                        exact Except.noConfusion h
                      | ok rs =>
                        obtain ⟨⟨p1, v1⟩, st3⟩ := rs
                        rw [hskip] at h
                        dsimp only [afterSkip, stored] at h
                        obtain ⟨hr, hst⟩ := ok_pair_inj h
                        subst hr
                        subst hst
                        obtain ⟨hst3, g, hg⟩ := ih m G sc _ _ _ _ hwf (memoOK_probe hmo pos _) hskip
                        rw [evalPure_skipK] at hg
                        obtain ⟨hp1, _⟩ := some_pair_inj hg
                        subst hn5
                        refine ⟨memoOK_setEntry_res hst3 ⟨1, ?_⟩ _ _, 0, ?_⟩
                        · rw [evalPure_runK_rule, hG, builtinPure_IDENT]
                          unfold rule_IDENT_pure
                          rw [← hp1]
                        · rw [evalPure_runK_rule, hG, builtinPure_IDENT]
                          unfold rule_IDENT_pure
                          rw [← hp1]
                    · rw [if_neg hn5] at h
                      by_cases hn6 : n = "HOLE"
                      · rw [if_pos hn6] at h
                        cases hskip : exec f m G sc (.skipK pos) (probeState st pos (.rule n)) with
                        | error e =>
                          rw [hskip] at h
                          exact Except.noConfusion h
                        | ok rs =>
                          obtain ⟨⟨p1, v1⟩, st3⟩ := rs
                          rw [hskip] at h
                          dsimp only [afterSkip, stored] at h
                          obtain ⟨hr, hst⟩ := ok_pair_inj h
                          subst hr
                          subst hst
                          obtain ⟨hst3, g, hg⟩ := ih m G sc _ _ _ _ hwf (memoOK_probe hmo pos _) hskip
                          rw [evalPure_skipK] at hg
                          obtain ⟨hp1, _⟩ := some_pair_inj hg
                          subst hn6
                          refine ⟨memoOK_setEntry_res hst3 ⟨1, ?_⟩ _ _, 0, ?_⟩
                          · rw [evalPure_runK_rule, hG, builtinPure_HOLE]
                            unfold rule_HOLE_pure
                            rw [← hp1]
                          · rw [evalPure_runK_rule, hG, builtinPure_HOLE]
                            unfold rule_HOLE_pure
                            rw [← hp1]
                      · rw [if_neg hn6] at h
                        by_cases hn7 : n = "EOF"
                        · rw [if_pos hn7] at h
                          cases hskip : exec f m G sc (.skipK pos) (probeState st pos (.rule n)) with
                          | error e =>
                            rw [hskip] at h
                            exact Except.noConfusion h
                          | ok rs =>
                            obtain ⟨⟨p1, v1⟩, st3⟩ := rs
                            rw [hskip] at h
                            dsimp only [afterSkip, stored] at h
                            obtain ⟨hr, hst⟩ := ok_pair_inj h
                            subst hr
                            subst hst
                            obtain ⟨hst3, g, hg⟩ := ih m G sc _ _ _ _ hwf (memoOK_probe hmo pos _) hskip
                            rw [evalPure_skipK] at hg
                            obtain ⟨hp1, _⟩ := some_pair_inj hg
                            subst hn7
                            refine ⟨memoOK_setEntry_res hst3 ⟨1, ?_⟩ _ _, 0, ?_⟩
                            · rw [evalPure_runK_rule, hG, builtinPure_EOF]
                              unfold rule_EOF_pure
                              rw [← hp1]
                            · rw [evalPure_runK_rule, hG, builtinPure_EOF]
                              unfold rule_EOF_pure
                              rw [← hp1]
                        · rw [if_neg hn7] at h
                          exact Except.noConfusion h
    | .interpK e pos =>
      cases e with
      | term p =>
        rw [exec_term] at h
        obtain ⟨hst', g, hg⟩ := ih m G sc _ st r st' hwf hmo h
        refine ⟨hst', g + 1, ?_⟩
        rw [evalPure_term]
        exact hg
      | call n =>
        rw [exec_call] at h
        obtain ⟨hst', g, hg⟩ := ih m G sc _ st r st' hwf hmo h
        refine ⟨hst', g + 1, ?_⟩
        rw [evalPure_call]
        exact hg
      | seq a b =>
        rw [exec_seq] at h
        cases h1 : exec f m G sc (.interpK a pos) st with
        | error e =>
          rw [h1] at h
          exact Except.noConfusion h
        | ok rs1 =>
          obtain ⟨⟨p1, v1⟩, st1⟩ := rs1
          rw [h1] at h
          dsimp only [] at h
          obtain ⟨hst1, ga, hga⟩ := ih m G sc _ _ _ _ hwf hmo h1
          cases hf : isFAIL v1 with
          | true =>
            rw [if_pos hf] at h
            obtain ⟨hr, hst⟩ := ok_pair_inj h
            subst hr
            subst hst
            refine ⟨hst1, ga + 1, ?_⟩
            rw [evalPure_seq, hga]
            dsimp only []
            rw [if_pos hf]
          | false =>
            rw [if_neg (by simp [hf])] at h
            cases h2 : exec f m G sc (.interpK b p1) st1 with
            | error e =>
              rw [h2] at h
              exact Except.noConfusion h
            | ok rs2 =>
              obtain ⟨⟨p2, v2⟩, st2⟩ := rs2
              rw [h2] at h
              dsimp only [] at h
              obtain ⟨hst2, gb, hgb⟩ := ih m G sc _ _ _ _ hwf hst1 h2
              cases hf2 : isFAIL v2 with
              | true =>
                rw [if_pos hf2] at h
                obtain ⟨hr, hst⟩ := ok_pair_inj h
                subst hr
                subst hst
                refine ⟨hst2, Nat.max ga gb + 1, ?_⟩
                rw [evalPure_seq]
                rw [evalPure_mono_le (Nat.succ_le_succ (Nat.le_max_left ga gb)) hga]
                dsimp only []
                rw [if_neg (by simp [hf])]
                rw [evalPure_mono_le (Nat.succ_le_succ (Nat.le_max_right ga gb)) hgb]
                dsimp only []
                rw [if_pos hf2]
              | false =>
                rw [if_neg (by simp [hf2])] at h
                obtain ⟨hr, hst⟩ := ok_pair_inj h
                subst hr
                subst hst
                refine ⟨hst2, Nat.max ga gb + 1, ?_⟩
                rw [evalPure_seq]
                rw [evalPure_mono_le (Nat.succ_le_succ (Nat.le_max_left ga gb)) hga]
                dsimp only []
                rw [if_neg (by simp [hf])]
                rw [evalPure_mono_le (Nat.succ_le_succ (Nat.le_max_right ga gb)) hgb]
                dsimp only []
                rw [if_neg (by simp [hf2])]
      | choice a b =>
        rw [exec_choice] at h
        cases h1 : exec f m G sc (.interpK a pos) st with
        | error e =>
          rw [h1] at h
          exact Except.noConfusion h
        | ok rs1 =>
          obtain ⟨⟨p1, v1⟩, st1⟩ := rs1
          rw [h1] at h
          dsimp only [] at h
          obtain ⟨hst1, ga, hga⟩ := ih m G sc _ _ _ _ hwf hmo h1
          cases hf : isFAIL v1 with
          | true =>
            rw [if_pos hf] at h
            obtain ⟨hst', gb, hgb⟩ := ih m G sc _ _ _ _ hwf hst1 h
            refine ⟨hst', Nat.max ga gb + 1, ?_⟩
            rw [evalPure_choice]
            rw [evalPure_mono_le (Nat.succ_le_succ (Nat.le_max_left ga gb)) hga]
            dsimp only []
            rw [if_pos hf]
            exact evalPure_mono_le (Nat.succ_le_succ (Nat.le_max_right ga gb)) hgb
          | false =>
            rw [if_neg (by simp [hf])] at h
            obtain ⟨hr, hst⟩ := ok_pair_inj h
            subst hr
            subst hst
            refine ⟨hst1, ga + 1, ?_⟩
            rw [evalPure_choice, hga]
            dsimp only []
            rw [if_neg (by simp [hf])]
      | star a =>
        rw [exec_starE] at h
        obtain ⟨hst', g, hg⟩ := ih m G sc _ st r st' hwf hmo h
        refine ⟨hst', g + 1, ?_⟩
        rw [evalPure_starE]
        exact hg
      | opt a =>
        rw [exec_optE] at h
        cases h1 : exec f m G sc (.interpK a pos) st with
        | error e =>
          rw [h1] at h
          exact Except.noConfusion h
        | ok rs1 =>
          obtain ⟨⟨p1, v1⟩, st1⟩ := rs1
          rw [h1] at h
          dsimp only [] at h
          obtain ⟨hst1, ga, hga⟩ := ih m G sc _ _ _ _ hwf hmo h1
          cases hf : isFAIL v1 with
          | true =>
            rw [if_pos hf] at h
            obtain ⟨hr, hst⟩ := ok_pair_inj h
            subst hr
            subst hst
            refine ⟨hst1, ga + 1, ?_⟩
            rw [evalPure_optE, hga]
            dsimp only []
            rw [if_pos hf]
          | false =>
            rw [if_neg (by simp [hf])] at h
            obtain ⟨hr, hst⟩ := ok_pair_inj h
            subst hr
            subst hst
            refine ⟨hst1, ga + 1, ?_⟩
            rw [evalPure_optE, hga]
            dsimp only []
            rw [if_neg (by simp [hf])]
    | .starK a pos acc =>
      rw [exec_starK] at h
      cases h1 : exec f m G sc (.interpK a pos) st with
      | error e =>
        rw [h1] at h
        exact Except.noConfusion h
      | ok rs1 =>
        obtain ⟨⟨p1, v1⟩, st1⟩ := rs1
        rw [h1] at h
        dsimp only [] at h
        obtain ⟨hst1, ga, hga⟩ := ih m G sc _ _ _ _ hwf hmo h1
        cases hf : isFAIL v1 with
        | true =>
          rw [if_pos hf] at h
          obtain ⟨hr, hst⟩ := ok_pair_inj h
          subst hr
          subst hst
          refine ⟨hst1, ga + 1, ?_⟩
          rw [evalPure_starK, hga]
          dsimp only []
          rw [if_pos hf]
        | false =>
          rw [if_neg (by simp [hf])] at h
          obtain ⟨hst', gb, hgb⟩ := ih m G sc _ _ _ _ hwf hst1 h
          refine ⟨hst', Nat.max ga gb + 1, ?_⟩
          rw [evalPure_starK]
          rw [evalPure_mono_le (Nat.succ_le_succ (Nat.le_max_left ga gb)) hga]
          dsimp only []
          rw [if_neg (by simp [hf])]
          exact evalPure_mono_le (Nat.succ_le_succ (Nat.le_max_right ga gb)) hgb
    | .skipK pos =>
      rw [exec_skipK] at h
      cases he : sc.toks[pos]? with
      | none =>
        rw [he] at h
        dsimp only [] at h
        obtain ⟨hr, hst⟩ := ok_pair_inj h
        subst hr
        subst hst
        refine ⟨hmo, 0, ?_⟩
        rw [evalPure_skipK]
        have hsp : skipPure sc pos = pos := by rw [skipPure_unfold, he]
        rw [hsp]
      | some el =>
        cases el with
        | hole k =>
          rw [he] at h
          dsimp only [] at h
          obtain ⟨hr, hst⟩ := ok_pair_inj h
          subst hr
          subst hst
          refine ⟨hmo, 0, ?_⟩
          rw [evalPure_skipK]
          have hsp : skipPure sc pos = pos := by rw [skipPure_unfold, he]
          rw [hsp]
        | tok t =>
          rw [he] at h
          dsimp only [] at h
          cases hs : isFAIL (rule_SPACE sc pos).2 with
          | false =>
            rw [if_neg (by simp [hs])] at h
            obtain ⟨hst', g, hg⟩ := ih m G sc _ _ _ _ hwf hmo h
            rw [evalPure_skipK] at hg
            refine ⟨hst', 0, ?_⟩
            rw [evalPure_skipK]
            have hsp : skipPure sc pos = skipPure sc ((rule_SPACE sc pos).1) := by
              rw [skipPure_unfold, he]
              dsimp only []
              rw [if_neg (by simp [hs])]
            rw [hsp]
            exact hg
          | true =>
            rw [if_pos hs] at h
            cases hrun : exec f m G sc (.runK (.rule "COMMENT") "COMMENT" pos) st with
            | error e =>
              rw [hrun] at h
              exact Except.noConfusion h
            | ok rsc =>
              obtain ⟨⟨pc, vc⟩, st1⟩ := rsc
              rw [hrun] at h
              dsimp only [] at h
              obtain ⟨hst1, g, hg⟩ := ih m G sc _ _ _ _ hwf hmo hrun
              rw [evalPure_runK_rule, WFG_alget_none hwf comment_mem_builtin,
                builtinPure_COMMENT] at hg
              obtain ⟨hpc, hvc⟩ := some_pair_inj hg
              have hpc2 : pc = (rule_COMMENT sc pos).1 := hpc
              have hvc2 : vc = (rule_COMMENT sc pos).2 := hvc
              cases hv : isFAIL vc with
              | true =>
                rw [if_pos hv] at h
                obtain ⟨hr, hst⟩ := ok_pair_inj h
                subst hr
                subst hst
                refine ⟨hst1, 0, ?_⟩
                rw [evalPure_skipK]
                have hsp : skipPure sc pos = pos := by
                  rw [skipPure_unfold, he]
                  dsimp only []
                  rw [if_pos hs, if_pos (hvc2 ▸ hv)]
                rw [hsp]
              | false =>
                rw [if_neg (by simp [hv])] at h
                obtain ⟨hst', g2, hg2⟩ := ih m G sc _ _ _ _ hwf hst1 h
                rw [evalPure_skipK] at hg2
                refine ⟨hst', 0, ?_⟩
                rw [evalPure_skipK]
                have hsp : skipPure sc pos = skipPure sc pc := by
                  rw [skipPure_unfold, he]
                  dsimp only []
                  rw [if_pos hs, if_neg (by simp [hvc2 ▸ hv])]
                  rw [hpc2]
                rw [hsp]
                exact hg2
    | .eatK pos p =>
      rw [exec_eatK] at h
      cases h1 : exec f m G sc (.skipK pos) st with
      | error e =>
        rw [h1] at h
        exact Except.noConfusion h
      | ok rs1 =>
        obtain ⟨⟨p1, v1⟩, st1⟩ := rs1
        rw [h1] at h
        dsimp only [] at h
        obtain ⟨hr, hst⟩ := ok_pair_inj h
        subst hr
        subst hst
        obtain ⟨hst1, g, hg⟩ := ih m G sc _ _ _ _ hwf hmo h1
        rw [evalPure_skipK] at hg
        obtain ⟨hp1, _⟩ := some_pair_inj hg
        refine ⟨hst1, 0, ?_⟩
        rw [evalPure_eatK]
        unfold eatPure
        rw [← hp1]

/-- Machine fuel monotonicity: a completed activation is unchanged by
extra fuel. -/
theorem exec_mono :
    ∀ f (m : Bool) (G : Grammar) (sc : Ctx) (c : CallK) (st : PState)
      (out : Res × PState),
      exec f m G sc c st = .ok out → exec (f + 1) m G sc c st = .ok out := by
  intro f
  induction f with
  | zero =>
    intro m G sc c st out h
    rw [exec_zero] at h
    exact Except.noConfusion h
  | succ f ih =>
    intro m G sc c st out h
    match c with
    | .runK key name pos =>
      rw [exec_runK] at h ⊢
      cases hm0 : (if m then memoEntry (ensureP st.memo pos) pos key else none) with
      | some e =>
        rw [hm0] at h
        cases e with
        | leftRecur => exact h
        | res r0 => exact h
      | none =>
        rw [hm0] at h
        cases key with
        | patt p =>
          dsimp only [] at h ⊢
          cases hsub : exec f m G sc (.eatK pos p) (probeState st pos (.patt p)) with
          | error e => rw [hsub] at h; exact absurd h (by simp [stored])
          | ok out2 =>
            rw [hsub] at h
            rw [ih m G sc _ _ _ hsub]
            exact h
        | rule n =>
          dsimp only [] at h ⊢
          cases hG : alget G n with
          | some body =>
            rw [hG] at h
            dsimp only [] at h ⊢
            cases hsub : exec f m G sc (.interpK body pos) (probeState st pos (.rule n)) with
            | error e => rw [hsub] at h; exact absurd h (by simp [stored])
            | ok out2 =>
              rw [hsub] at h
              rw [ih m G sc _ _ _ hsub]
              exact h
          | none =>
            rw [hG] at h
            dsimp only [] at h ⊢
            by_cases hn1 : n = "SPACE"
            · rw [if_pos hn1] at h ⊢
              exact h
            · rw [if_neg hn1] at h ⊢
              by_cases hn2 : n = "COMMENT"
              · rw [if_pos hn2] at h ⊢
                exact h
              · rw [if_neg hn2] at h ⊢
                by_cases hn3 : n = "NUMBER"
                · rw [if_pos hn3] at h ⊢
                  cases hsub : exec f m G sc (.eatK pos (.reg .number)) (probeState st pos (.rule n)) with
                  | error e => rw [hsub] at h; exact absurd h (by simp [stored])
                  | ok out2 =>
                    rw [hsub] at h
                    rw [ih m G sc _ _ _ hsub]
                    exact h
                · rw [if_neg hn3] at h ⊢
                  by_cases hn4 : n = "STRING"
                  · rw [if_pos hn4] at h ⊢
                    cases hsub : exec f m G sc (.eatK pos (.reg .string_)) (probeState st pos (.rule n)) with
                    | error e => rw [hsub] at h; exact absurd h (by simp [stored])
                    | ok out2 =>
                      rw [hsub] at h
                      rw [ih m G sc _ _ _ hsub]
                      exact h
                  · rw [if_neg hn4] at h ⊢
                    by_cases hn5 : n = "IDENT"
                    · rw [if_pos hn5] at h ⊢
                      cases hskip : exec f m G sc (.skipK pos) (probeState st pos (.rule n)) with
                      | error e => rw [hskip] at h; exact absurd h (by simp [afterSkip, stored])
                      | ok out2 =>
                        rw [hskip] at h
                        rw [ih m G sc _ _ _ hskip]
                        exact h
                    · rw [if_neg hn5] at h ⊢
                      by_cases hn6 : n = "HOLE"
                      · rw [if_pos hn6] at h ⊢
                        cases hskip : exec f m G sc (.skipK pos) (probeState st pos (.rule n)) with
                        | error e => rw [hskip] at h; exact absurd h (by simp [afterSkip, stored])
                        | ok out2 =>
                          rw [hskip] at h
                          rw [ih m G sc _ _ _ hskip]
                          exact h
                      · rw [if_neg hn6] at h ⊢
                        by_cases hn7 : n = "EOF"
                        · rw [if_pos hn7] at h ⊢
                          cases hskip : exec f m G sc (.skipK pos) (probeState st pos (.rule n)) with
                          | error e => rw [hskip] at h; exact absurd h (by simp [afterSkip, stored])
                          | ok out2 =>
                            rw [hskip] at h
                            rw [ih m G sc _ _ _ hskip]
                            exact h
                        · rw [if_neg hn7] at h ⊢
                          exact h
    | .interpK e pos =>
      cases e with
      | term p =>
        rw [exec_term] at h ⊢
        exact ih m G sc _ _ _ h
      | call n =>
        rw [exec_call] at h ⊢
        exact ih m G sc _ _ _ h
      | seq a b =>
        rw [exec_seq] at h ⊢
        cases h1 : exec f m G sc (.interpK a pos) st with
        | error e => rw [h1] at h; exact Except.noConfusion h
        | ok rs1 =>
          obtain ⟨⟨p1, v1⟩, st1⟩ := rs1
          rw [h1] at h
          rw [ih m G sc _ _ _ h1]
          dsimp only [] at h ⊢
          by_cases hf : isFAIL v1 = true
          · rw [if_pos hf] at h ⊢
            exact h
          · rw [if_neg hf] at h ⊢
            cases h2 : exec f m G sc (.interpK b p1) st1 with
            | error e => rw [h2] at h; exact Except.noConfusion h
            | ok rs2 =>
              rw [h2] at h
              rw [ih m G sc _ _ _ h2]
              exact h
      | choice a b =>
        rw [exec_choice] at h ⊢
        cases h1 : exec f m G sc (.interpK a pos) st with
        | error e => rw [h1] at h; exact Except.noConfusion h
        | ok rs1 =>
          obtain ⟨⟨p1, v1⟩, st1⟩ := rs1
          rw [h1] at h
          rw [ih m G sc _ _ _ h1]
          dsimp only [] at h ⊢
          by_cases hf : isFAIL v1 = true
          · rw [if_pos hf] at h ⊢
            exact ih m G sc _ _ _ h
          · rw [if_neg hf] at h ⊢
            exact h
      | star a =>
        rw [exec_starE] at h ⊢
        exact ih m G sc _ _ _ h
      | opt a =>
        rw [exec_optE] at h ⊢
        cases h1 : exec f m G sc (.interpK a pos) st with
        | error e => rw [h1] at h; exact Except.noConfusion h
        | ok rs1 =>
          obtain ⟨⟨p1, v1⟩, st1⟩ := rs1
          rw [h1] at h
          rw [ih m G sc _ _ _ h1]
          exact h
    | .starK a pos acc =>
      rw [exec_starK] at h ⊢
      cases h1 : exec f m G sc (.interpK a pos) st with
      | error e => rw [h1] at h; exact Except.noConfusion h
      | ok rs1 =>
        obtain ⟨⟨p1, v1⟩, st1⟩ := rs1
        rw [h1] at h
        rw [ih m G sc _ _ _ h1]
        dsimp only [] at h ⊢
        by_cases hf : isFAIL v1 = true
        · rw [if_pos hf] at h ⊢
          exact h
        · rw [if_neg hf] at h ⊢
          exact ih m G sc _ _ _ h
    | .skipK pos =>
      rw [exec_skipK] at h ⊢
      cases he : sc.toks[pos]? with
      | none =>
        rw [he] at h
        exact h
      | some el =>
        cases el with
        | hole k =>
          rw [he] at h
          exact h
        | tok t =>
          rw [he] at h
          dsimp only [] at h ⊢
          by_cases hs : isFAIL (rule_SPACE sc pos).2 = true
          · rw [if_pos hs] at h ⊢
            cases hrun : exec f m G sc (.runK (.rule "COMMENT") "COMMENT" pos) st with
            | error e => rw [hrun] at h; exact Except.noConfusion h
            | ok rsc =>
              obtain ⟨⟨pc, vc⟩, st1⟩ := rsc
              rw [hrun] at h
              rw [ih m G sc _ _ _ hrun]
              dsimp only [] at h ⊢
              by_cases hv : isFAIL vc = true
              · rw [if_pos hv] at h ⊢
                exact h
              · rw [if_neg hv] at h ⊢
                exact ih m G sc _ _ _ h
          · rw [if_neg hs] at h ⊢
            exact ih m G sc _ _ _ h
    | .eatK pos p =>
      rw [exec_eatK] at h ⊢
      cases h1 : exec f m G sc (.skipK pos) st with
      | error e => rw [h1] at h; exact Except.noConfusion h
      | ok rs1 =>
        obtain ⟨⟨p1, v1⟩, st1⟩ := rs1
        rw [h1] at h
        rw [ih m G sc _ _ _ h1]
        exact h

/-- Machine fuel monotonicity, `≤` form. -/
theorem exec_mono_le {f f' : Nat} {m : Bool} {G : Grammar} {sc : Ctx} {c : CallK}
    {st : PState} {out : Res × PState} (hle : f ≤ f')
    (h : exec f m G sc c st = .ok out) : exec f' m G sc c st = .ok out := by
  induction f' with
  | zero =>
    have : f = 0 := Nat.le_zero.mp hle
    subst this
    exact h
  | succ f' ih =>
    rcases Nat.lt_or_ge f (f' + 1) with hlt | hge
    · exact exec_mono f' m G sc c st out (ih (by omega))
    · have : f = f' + 1 := by omega
      subst this
      exact h

/-! ## Completeness of the memo-free machine -/

/-- With `m = false` every `run` activation takes the miss path. -/
theorem exec_runK_miss (f : Nat) (G : Grammar) (sc : Ctx) (key : Key)
    (name : String) (pos : Nat) (st : PState) :
    exec (f + 1) false G sc (.runK key name pos) st =
      stored pos key
        (match key with
         | .patt p => exec f false G sc (.eatK pos p) (probeState st pos key)
         | .rule n =>
           match alget G n with
           | some body => exec f false G sc (.interpK body pos) (probeState st pos key)
           | none =>
             if n = "SPACE" then .ok (rule_SPACE sc pos, probeState st pos key)
             else if n = "COMMENT" then .ok (rule_COMMENT sc pos, probeState st pos key)
             else if n = "NUMBER" then
               exec f false G sc (.eatK pos (.reg .number)) (probeState st pos key)
             else if n = "STRING" then
               exec f false G sc (.eatK pos (.reg .string_)) (probeState st pos key)
             else if n = "IDENT" then
               afterSkip (identAfter sc) (exec f false G sc (.skipK pos) (probeState st pos key))
             else if n = "HOLE" then
               afterSkip (holeAfter sc) (exec f false G sc (.skipK pos) (probeState st pos key))
             else if n = "EOF" then
               afterSkip (eofAfter sc) (exec f false G sc (.skipK pos) (probeState st pos key))
             else .error (.ruleMissing n)) := rfl

/-- A successful SPACE step advances `rule_SKIP` by one token. -/
theorem skipPure_space {sc : Ctx} {pos : Nat}
    (hs : isFAIL (rule_SPACE sc pos).2 = false) :
    skipPure sc pos = skipPure sc (pos + 1) := by
  obtain ⟨h1, t, ht, _⟩ := rule_SPACE_success hs
  rw [skipPure_unfold, ht]
  dsimp only []
  rw [if_neg (by simp [hs]), h1]

/-- A successful COMMENT step (after SPACE failed) advances `rule_SKIP`
by one token. -/
theorem skipPure_comment {sc : Ctx} {pos : Nat}
    (hs : isFAIL (rule_SPACE sc pos).2 = true)
    (hc : isFAIL (rule_COMMENT sc pos).2 = false) :
    skipPure sc pos = skipPure sc (pos + 1) := by
  obtain ⟨h1, t, ht, _⟩ := rule_COMMENT_success hc
  rw [skipPure_unfold, ht]
  dsimp only []
  rw [if_pos hs, if_neg (by simp [hc]), h1]

/-- When both SPACE and COMMENT fail, `rule_SKIP` stops. -/
theorem skipPure_stop {sc : Ctx} {pos : Nat}
    (hs : isFAIL (rule_SPACE sc pos).2 = true)
    (hc : isFAIL (rule_COMMENT sc pos).2 = true) : skipPure sc pos = pos := by
  rw [skipPure_unfold]
  cases he : sc.toks[pos]? with
  | none => rfl
  | some el =>
    cases el with
    | hole k => rfl
    | tok t =>
      dsimp only []
      rw [if_pos hs, if_pos hc]

/-- The memo-free machine resolves a `SPACE` run in one step. -/
theorem exec_run_SPACE (f : Nat) (G : Grammar) (sc : Ctx) (name : String)
    (pos : Nat) (st : PState) (halget : alget G "SPACE" = none) :
    exec (f + 1) false G sc (.runK (.rule "SPACE") name pos) st =
      .ok (rule_SPACE sc pos,
        ⟨setEntry (probeState st pos (.rule "SPACE")).memo pos (.rule "SPACE")
           (.res (rule_SPACE sc pos)), st.hits, st.misses + 1⟩) := by
  rw [exec_runK_miss]
  dsimp only []
  rw [halget]
  rfl

/-- The memo-free machine resolves a `COMMENT` run in one step. -/
theorem exec_run_COMMENT (f : Nat) (G : Grammar) (sc : Ctx) (name : String)
    (pos : Nat) (st : PState) (halget : alget G "COMMENT" = none) :
    exec (f + 1) false G sc (.runK (.rule "COMMENT") name pos) st =
      .ok (rule_COMMENT sc pos,
        ⟨setEntry (probeState st pos (.rule "COMMENT")).memo pos (.rule "COMMENT")
           (.res (rule_COMMENT sc pos)), st.hits, st.misses + 1⟩) := by
  rw [exec_runK_miss]
  dsimp only []
  rw [halget]
  rfl

/-- The memo-free machine dispatches a `NUMBER` run to `eat`. -/
theorem exec_run_NUMBER (f : Nat) (G : Grammar) (sc : Ctx) (name : String)
    (pos : Nat) (st : PState) (halget : alget G "NUMBER" = none) :
    exec (f + 1) false G sc (.runK (.rule "NUMBER") name pos) st =
      stored pos (.rule "NUMBER")
        (exec f false G sc (.eatK pos (.reg .number))
          (probeState st pos (.rule "NUMBER"))) := by
  rw [exec_runK_miss]
  dsimp only []
  rw [halget]
  rfl

/-- The memo-free machine dispatches a `STRING` run to `eat`. -/
theorem exec_run_STRING (f : Nat) (G : Grammar) (sc : Ctx) (name : String)
    (pos : Nat) (st : PState) (halget : alget G "STRING" = none) :
    exec (f + 1) false G sc (.runK (.rule "STRING") name pos) st =
      stored pos (.rule "STRING")
        (exec f false G sc (.eatK pos (.reg .string_))
          (probeState st pos (.rule "STRING"))) := by
  rw [exec_runK_miss]
  dsimp only []
  rw [halget]
  rfl

/-- The memo-free machine dispatches an `IDENT` run to `rule_SKIP`. -/
theorem exec_run_IDENT (f : Nat) (G : Grammar) (sc : Ctx) (name : String)
    (pos : Nat) (st : PState) (halget : alget G "IDENT" = none) :
    exec (f + 1) false G sc (.runK (.rule "IDENT") name pos) st =
      stored pos (.rule "IDENT")
        (afterSkip (identAfter sc)
          (exec f false G sc (.skipK pos) (probeState st pos (.rule "IDENT")))) := by
  rw [exec_runK_miss]
  dsimp only []
  rw [halget]
  rfl

/-- The memo-free machine dispatches a `HOLE` run to `rule_SKIP`. -/
theorem exec_run_HOLE (f : Nat) (G : Grammar) (sc : Ctx) (name : String)
    (pos : Nat) (st : PState) (halget : alget G "HOLE" = none) :
    exec (f + 1) false G sc (.runK (.rule "HOLE") name pos) st =
      stored pos (.rule "HOLE")
        (afterSkip (holeAfter sc)
          (exec f false G sc (.skipK pos) (probeState st pos (.rule "HOLE")))) := by
  rw [exec_runK_miss]
  dsimp only []
  rw [halget]
  rfl

/-- The memo-free machine dispatches an `EOF` run to `rule_SKIP`. -/
theorem exec_run_EOF (f : Nat) (G : Grammar) (sc : Ctx) (name : String)
    (pos : Nat) (st : PState) (halget : alget G "EOF" = none) :
    exec (f + 1) false G sc (.runK (.rule "EOF") name pos) st =
      stored pos (.rule "EOF")
        (afterSkip (eofAfter sc)
          (exec f false G sc (.skipK pos) (probeState st pos (.rule "EOF")))) := by
  rw [exec_runK_miss]
  dsimp only []
  rw [halget]
  rfl

/-- Completeness of the memo-free machine for `rule_SKIP`: with enough
fuel it returns exactly the reference skip position, from any state. -/
theorem skipK_complete (G : Grammar) (sc : Ctx) (hwf : WFG G) :
    ∀ n pos, sc.toks.length ≤ n + pos →
      ∀ st : PState, ∃ st', exec (n + 2) false G sc (.skipK pos) st =
        .ok ((skipPure sc pos, .str ""), st') := by
  intro n
  induction n with
  | zero =>
    intro pos hlen st
    have he : sc.toks[pos]? = none := List.getElem?_eq_none (by omega)
    have hsp : skipPure sc pos = pos := by rw [skipPure_unfold, he]
    refine ⟨st, ?_⟩
    rw [hsp, exec_skipK, he]
  | succ n ih =>
    intro pos hlen st
    cases he : sc.toks[pos]? with
    | none =>
      have hsp : skipPure sc pos = pos := by rw [skipPure_unfold, he]
      refine ⟨st, ?_⟩
      rw [hsp, exec_skipK, he]
    | some el =>
      cases el with
      | hole k =>
        have hsp : skipPure sc pos = pos := by rw [skipPure_unfold, he]
        refine ⟨st, ?_⟩
        rw [hsp, exec_skipK, he]
      | tok t =>
        have hp : pos < sc.toks.length := (List.getElem?_eq_some_iff.mp he).1
        cases hs : isFAIL (rule_SPACE sc pos).2 with
        | false =>
          have hss := rule_SPACE_success hs
          obtain ⟨st1, h1⟩ := ih (pos + 1) (by omega) st
          refine ⟨st1, ?_⟩
          rw [exec_skipK, he]
          dsimp only []
          rw [if_neg (by simp [hs]), hss.1, skipPure_space hs]
          exact h1
        | true =>
          cases hc : isFAIL (rule_COMMENT sc pos).2 with
          | true =>
            refine ⟨⟨setEntry (probeState st pos (.rule "COMMENT")).memo pos (.rule "COMMENT")
                 (.res (rule_COMMENT sc pos)), st.hits, st.misses + 1⟩, ?_⟩
            rw [exec_skipK, he]
            dsimp only []
            rw [if_pos hs,
              exec_run_COMMENT (n + 1) G sc "COMMENT" pos st
                (WFG_alget_none hwf comment_mem_builtin)]
            dsimp only []
            rw [if_pos hc, skipPure_stop hs hc]
          | false =>
            have hcs := rule_COMMENT_success hc
            obtain ⟨st1, h1⟩ := ih (pos + 1) (by omega)
              ⟨setEntry (probeState st pos (.rule "COMMENT")).memo pos (.rule "COMMENT")
                 (.res (rule_COMMENT sc pos)), st.hits, st.misses + 1⟩
            refine ⟨st1, ?_⟩
            rw [exec_skipK, he]
            dsimp only []
            rw [if_pos hs,
              exec_run_COMMENT (n + 1) G sc "COMMENT" pos st
                (WFG_alget_none hwf comment_mem_builtin)]
            dsimp only []
            rw [if_neg (by simp [hc]), hcs.1, skipPure_comment hs hc]
            exact h1

/-- Completeness of the memo-free machine for `eat`. -/
theorem eatK_complete (G : Grammar) (sc : Ctx) (hwf : WFG G) (pos : Nat) (p : Patt) :
    ∀ st : PState, ∃ st', exec (sc.toks.length + 2 + 1) false G sc (.eatK pos p) st =
      .ok (eatPure sc pos p, st') := by
  intro st
  obtain ⟨st1, h1⟩ := skipK_complete G sc hwf sc.toks.length pos (by omega) st
  refine ⟨st1, ?_⟩
  rw [exec_eatK, h1]
  rfl

/-- Completeness of the memo-free machine: whatever result the reference
semantics assigns to an activation, enough fuel makes the `m = false`
machine return exactly it, from any substrate state. -/
theorem exec_complete (G : Grammar) (sc : Ctx) (hwf : WFG G) :
    ∀ g (c : CallK) (r : Res), evalPure g G sc c = some r →
      ∃ f, ∀ st : PState, ∃ st', exec f false G sc c st = .ok (r, st') := by
  intro g
  induction g with
  | zero =>
    intro c r h
    exact Option.noConfusion h
  | succ g ih =>
    intro c r h
    match c with
    | .runK key name pos =>
      cases key with
      | patt p =>
        rw [evalPure_runK_patt] at h
        obtain ⟨f1, hf1⟩ := ih _ _ h
        refine ⟨f1 + 1, fun st => ?_⟩
        obtain ⟨st1, h1⟩ := hf1 (probeState st pos (.patt p))
        rw [exec_runK_miss]
        dsimp only []
        rw [h1]
        exact ⟨_, rfl⟩
      | rule n =>
        rw [evalPure_runK_rule] at h
        cases halget : alget G n with
        | some body =>
          rw [halget] at h
          dsimp only [] at h
          obtain ⟨f1, hf1⟩ := ih _ _ h
          refine ⟨f1 + 1, fun st => ?_⟩
          obtain ⟨st1, h1⟩ := hf1 (probeState st pos (.rule n))
          rw [exec_runK_miss]
          dsimp only []
          rw [halget]
          dsimp only []
          rw [h1]
          exact ⟨_, rfl⟩
        | none =>
          rw [halget] at h
          dsimp only [] at h
          unfold builtinPure at h
          by_cases h1n : n = "SPACE"
          · subst h1n
            rw [if_pos rfl] at h
            injection h with hr
            subst hr
            refine ⟨1, fun st => ?_⟩
            rw [exec_run_SPACE 0 G sc name pos st halget]
            exact ⟨_, rfl⟩
          · rw [if_neg h1n] at h
            by_cases h2n : n = "COMMENT"
            · subst h2n
              rw [if_pos rfl] at h
              injection h with hr
              subst hr
              refine ⟨1, fun st => ?_⟩
              rw [exec_run_COMMENT 0 G sc name pos st halget]
              exact ⟨_, rfl⟩
            · rw [if_neg h2n] at h
              by_cases h3n : n = "NUMBER"
              · subst h3n
                rw [if_pos rfl] at h
                injection h with hr
                subst hr
                refine ⟨sc.toks.length + 2 + 1 + 1, fun st => ?_⟩
                obtain ⟨st1, h1⟩ :=
                  eatK_complete G sc hwf pos (.reg .number) (probeState st pos (.rule "NUMBER"))
                rw [exec_run_NUMBER (sc.toks.length + 2 + 1) G sc name pos st halget, h1]
                exact ⟨_, rfl⟩
              · rw [if_neg h3n] at h
                by_cases h4n : n = "STRING"
                · subst h4n
                  rw [if_pos rfl] at h
                  injection h with hr
                  subst hr
                  refine ⟨sc.toks.length + 2 + 1 + 1, fun st => ?_⟩
                  obtain ⟨st1, h1⟩ :=
                    eatK_complete G sc hwf pos (.reg .string_) (probeState st pos (.rule "STRING"))
                  rw [exec_run_STRING (sc.toks.length + 2 + 1) G sc name pos st halget, h1]
                  exact ⟨_, rfl⟩
                · rw [if_neg h4n] at h
                  by_cases h5n : n = "IDENT"
                  · subst h5n
                    rw [if_pos rfl] at h
                    injection h with hr
                    subst hr
                    refine ⟨sc.toks.length + 2 + 1, fun st => ?_⟩
                    obtain ⟨st1, h1⟩ :=
                      skipK_complete G sc hwf sc.toks.length pos (by omega)
                        (probeState st pos (.rule "IDENT"))
                    rw [exec_run_IDENT (sc.toks.length + 2) G sc name pos st halget, h1]
                    exact ⟨_, rfl⟩
                  · rw [if_neg h5n] at h
                    by_cases h6n : n = "HOLE"
                    · subst h6n
                      rw [if_pos rfl] at h
                      injection h with hr
                      subst hr
                      refine ⟨sc.toks.length + 2 + 1, fun st => ?_⟩
                      obtain ⟨st1, h1⟩ :=
                        skipK_complete G sc hwf sc.toks.length pos (by omega)
                          (probeState st pos (.rule "HOLE"))
                      rw [exec_run_HOLE (sc.toks.length + 2) G sc name pos st halget, h1]
                      exact ⟨_, rfl⟩
                    · rw [if_neg h6n] at h
                      by_cases h7n : n = "EOF"
                      · subst h7n
                        rw [if_pos rfl] at h
                        injection h with hr
                        subst hr
                        refine ⟨sc.toks.length + 2 + 1, fun st => ?_⟩
                        obtain ⟨st1, h1⟩ :=
                          skipK_complete G sc hwf sc.toks.length pos (by omega)
                            (probeState st pos (.rule "EOF"))
                        rw [exec_run_EOF (sc.toks.length + 2) G sc name pos st halget, h1]
                        exact ⟨_, rfl⟩
                      · rw [if_neg h7n] at h
                        exact Option.noConfusion h
    | .interpK e pos =>
      cases e with
      | term p =>
        rw [evalPure_term] at h
        obtain ⟨f1, hf1⟩ := ih _ _ h
        refine ⟨f1 + 1, fun st => ?_⟩
        obtain ⟨st1, h1⟩ := hf1 st
        rw [exec_term]
        exact ⟨st1, h1⟩
      | call n =>
        rw [evalPure_call] at h
        obtain ⟨f1, hf1⟩ := ih _ _ h
        refine ⟨f1 + 1, fun st => ?_⟩
        obtain ⟨st1, h1⟩ := hf1 st
        rw [exec_call]
        exact ⟨st1, h1⟩
      | seq a b =>
        rw [evalPure_seq] at h
        cases ha : evalPure g G sc (.interpK a pos) with
        | none => rw [ha] at h; exact Option.noConfusion h
        | some r1 =>
          obtain ⟨p1, v1⟩ := r1
          rw [ha] at h
          dsimp only [] at h
          obtain ⟨f1, hf1⟩ := ih _ _ ha
          by_cases hv1 : isFAIL v1 = true
          · rw [if_pos hv1] at h
            injection h with hr
            subst hr
            refine ⟨f1 + 1, fun st => ?_⟩
            obtain ⟨st1, h1⟩ := hf1 st
            rw [exec_seq, h1]
            dsimp only []
            rw [if_pos hv1]
            exact ⟨st1, rfl⟩
          · rw [if_neg hv1] at h
            cases hb : evalPure g G sc (.interpK b p1) with
            | none => rw [hb] at h; exact Option.noConfusion h
            | some r2 =>
              obtain ⟨p2, v2⟩ := r2
              rw [hb] at h
              dsimp only [] at h
              obtain ⟨f2, hf2⟩ := ih _ _ hb
              by_cases hv2 : isFAIL v2 = true
              · rw [if_pos hv2] at h
                injection h with hr
                subst hr
                refine ⟨max f1 f2 + 1, fun st => ?_⟩
                obtain ⟨st1, h1⟩ := hf1 st
                obtain ⟨st2, h2⟩ := hf2 st1
                rw [exec_seq, exec_mono_le (Nat.le_max_left f1 f2) h1]
                dsimp only []
                rw [if_neg hv1, exec_mono_le (Nat.le_max_right f1 f2) h2]
                dsimp only []
                rw [if_pos hv2]
                exact ⟨st2, rfl⟩
              · rw [if_neg hv2] at h
                injection h with hr
                subst hr
                refine ⟨max f1 f2 + 1, fun st => ?_⟩
                obtain ⟨st1, h1⟩ := hf1 st
                obtain ⟨st2, h2⟩ := hf2 st1
                rw [exec_seq, exec_mono_le (Nat.le_max_left f1 f2) h1]
                dsimp only []
                rw [if_neg hv1, exec_mono_le (Nat.le_max_right f1 f2) h2]
                dsimp only []
                rw [if_neg hv2]
                exact ⟨st2, rfl⟩
      | choice a b =>
        rw [evalPure_choice] at h
        cases ha : evalPure g G sc (.interpK a pos) with
        | none => rw [ha] at h; exact Option.noConfusion h
        | some r1 =>
          obtain ⟨p1, v1⟩ := r1
          rw [ha] at h
          dsimp only [] at h
          obtain ⟨f1, hf1⟩ := ih _ _ ha
          by_cases hv1 : isFAIL v1 = true
          · rw [if_pos hv1] at h
            obtain ⟨f2, hf2⟩ := ih _ _ h
            refine ⟨max f1 f2 + 1, fun st => ?_⟩
            obtain ⟨st1, h1⟩ := hf1 st
            obtain ⟨st2, h2⟩ := hf2 st1
            rw [exec_choice, exec_mono_le (Nat.le_max_left f1 f2) h1]
            dsimp only []
            rw [if_pos hv1]
            exact ⟨st2, exec_mono_le (Nat.le_max_right f1 f2) h2⟩
          · rw [if_neg hv1] at h
            injection h with hr
            subst hr
            refine ⟨f1 + 1, fun st => ?_⟩
            obtain ⟨st1, h1⟩ := hf1 st
            rw [exec_choice, h1]
            dsimp only []
            rw [if_neg hv1]
            exact ⟨st1, rfl⟩
      | star a =>
        rw [evalPure_starE] at h
        obtain ⟨f1, hf1⟩ := ih _ _ h
        refine ⟨f1 + 1, fun st => ?_⟩
        obtain ⟨st1, h1⟩ := hf1 st
        rw [exec_starE]
        exact ⟨st1, h1⟩
      | opt a =>
        rw [evalPure_optE] at h
        cases ha : evalPure g G sc (.interpK a pos) with
        | none => rw [ha] at h; exact Option.noConfusion h
        | some r1 =>
          obtain ⟨p1, v1⟩ := r1
          rw [ha] at h
          dsimp only [] at h
          obtain ⟨f1, hf1⟩ := ih _ _ ha
          by_cases hv1 : isFAIL v1 = true
          · rw [if_pos hv1] at h
            injection h with hr
            subst hr
            refine ⟨f1 + 1, fun st => ?_⟩
            obtain ⟨st1, h1⟩ := hf1 st
            rw [exec_optE, h1]
            dsimp only []
            rw [if_pos hv1]
            exact ⟨st1, rfl⟩
          · rw [if_neg hv1] at h
            injection h with hr
            subst hr
            refine ⟨f1 + 1, fun st => ?_⟩
            obtain ⟨st1, h1⟩ := hf1 st
            rw [exec_optE, h1]
            dsimp only []
            rw [if_neg hv1]
            exact ⟨st1, rfl⟩
    | .starK a pos acc =>
      rw [evalPure_starK] at h
      cases ha : evalPure g G sc (.interpK a pos) with
      | none => rw [ha] at h; exact Option.noConfusion h
      | some r1 =>
        obtain ⟨p1, v1⟩ := r1
        rw [ha] at h
        dsimp only [] at h
        obtain ⟨f1, hf1⟩ := ih _ _ ha
        by_cases hv1 : isFAIL v1 = true
        · rw [if_pos hv1] at h
          injection h with hr
          subst hr
          refine ⟨f1 + 1, fun st => ?_⟩
          obtain ⟨st1, h1⟩ := hf1 st
          rw [exec_starK, h1]
          dsimp only []
          rw [if_pos hv1]
          exact ⟨st1, rfl⟩
        · rw [if_neg hv1] at h
          obtain ⟨f2, hf2⟩ := ih _ _ h
          refine ⟨max f1 f2 + 1, fun st => ?_⟩
          obtain ⟨st1, h1⟩ := hf1 st
          obtain ⟨st2, h2⟩ := hf2 st1
          rw [exec_starK, exec_mono_le (Nat.le_max_left f1 f2) h1]
          dsimp only []
          rw [if_neg hv1]
          exact ⟨st2, exec_mono_le (Nat.le_max_right f1 f2) h2⟩
    | .skipK pos =>
      rw [evalPure_skipK] at h
      injection h with hr
      subst hr
      exact ⟨sc.toks.length + 2, fun st =>
        skipK_complete G sc hwf sc.toks.length pos (by omega) st⟩
    | .eatK pos p =>
      rw [evalPure_eatK] at h
      injection h with hr
      subst hr
      exact ⟨sc.toks.length + 2 + 1, fun st => eatK_complete G sc hwf pos p st⟩

/-! ## Alternation enumeration lemmas (for anyRE) -/

/-- The enumeration of an alternation is the concatenation of the
branches' enumerations, left branch first. -/
theorem msplits_alt (n : Nat) (a b : RE) (s : List Char) :
    msplits n (.alt a b) s = msplits n a s ++ msplits n b s := by
  cases n <;> rfl

/-- The enumeration of a nonempty ordered alternation list is the
concatenation of the components' enumerations in order. -/
theorem msplits_altList :
    ∀ (rs : List RE) (r : RE) (n : Nat) (s : List Char),
      msplits n (altList (r :: rs)) s =
        msplits n r s ++ (rs.map (fun x => msplits n x s)).flatten := by
  intro rs
  induction rs with
  | nil =>
    intro r n s
    simp [altList]
  | cons r2 rest ih =>
    intro r n s
    show msplits n (.alt r (altList (r2 :: rest))) s = _
    rw [msplits_alt, ih]
    simp

/-- `any` over a flattened list of lists. -/
theorem any_flatten {α : Type} (ls : List (List α)) (p : α → Bool) :
    ls.flatten.any p = ls.any (fun l => l.any p) := by
  induction ls with
  | nil => rfl
  | cons l rest ih => simp [List.any_append, ih]

/-- `any` over a flattened map. -/
theorem any_flatten_map {α β : Type} (l : List α) (g : α → List β) (p : β → Bool) :
    ((l.map g).flatten).any p = l.any (fun x => (g x).any p) := by
  induction l with
  | nil => rfl
  | cons x rest ih => simp [List.any_append, ih]

/-! ## Scanner position-bound lemmas -/

/-- `skip` never moves backwards or past the end. -/
theorem skip_bounds (sc : Ctx) (pos : Nat) (r : JSRegExp)
    (hpos : pos ≤ sc.toks.length) :
    pos ≤ (skip sc pos r).1 ∧ (skip sc pos r).1 ≤ sc.toks.length := by
  unfold skip
  cases he : sc.toks[pos]? with
  | none => exact ⟨Nat.le_refl _, hpos⟩
  | some el =>
    cases el with
    | hole k => exact ⟨Nat.le_refl _, hpos⟩
    | tok t =>
      have hp : pos < sc.toks.length := (List.getElem?_eq_some_iff.mp he).1
      dsimp only []
      by_cases ht : allREtest r t.text = true
      · rw [if_pos ht]
        exact ⟨Nat.le_succ _, hp⟩
      · rw [if_neg ht]
        exact ⟨Nat.le_refl _, hpos⟩

/-- On a token where `skip` fails, the regex does not match the text. -/
theorem skip_fail_tok {sc : Ctx} {pos : Nat} {r : JSRegExp} {t : Token}
    (he : sc.toks[pos]? = some (.tok t))
    (hf : isFAIL (skip sc pos r).2 = true) : allREtest r t.text = false := by
  unfold skip at hf
  rw [he] at hf
  dsimp only [] at hf
  cases ht : allREtest r t.text with
  | false => rfl
  | true =>
    rw [if_pos ht] at hf
    simp [isFAIL] at hf

/-- Packaging of the `rule_SKIP` facts at a stopping position. -/
theorem skipPure_props_stop (sc : Ctx) (pos : Nat)
    (hsp : skipPure sc pos = pos)
    (hstop : ∀ t, sc.toks[pos]? = some (.tok t) →
       allREtest SPACE_RE t.text = false ∧ allREtest LINE_COMMENT_RE t.text = false) :
    pos ≤ skipPure sc pos ∧
    (pos ≤ sc.toks.length → skipPure sc pos ≤ sc.toks.length) ∧
    (∀ i, pos ≤ i → i < skipPure sc pos → ∃ t, sc.toks[i]? = some (.tok t) ∧
       (allREtest SPACE_RE t.text = true ∨ allREtest LINE_COMMENT_RE t.text = true)) ∧
    (∀ t, sc.toks[skipPure sc pos]? = some (.tok t) →
       allREtest SPACE_RE t.text = false ∧ allREtest LINE_COMMENT_RE t.text = false) := by
  rw [hsp]
  exact ⟨Nat.le_refl _, id,
    fun i h1 h2 => absurd h2 (Nat.not_lt.mpr h1), hstop⟩

/-- The core facts about `rule_SKIP`: it never moves backwards, never
moves past the end, consumes only SPACE- or COMMENT-matching tokens, and
stops on the first token matching neither. -/
theorem skipPure_props (sc : Ctx) :
    ∀ n pos, sc.toks.length ≤ n + pos →
      pos ≤ skipPure sc pos ∧
      (pos ≤ sc.toks.length → skipPure sc pos ≤ sc.toks.length) ∧
      (∀ i, pos ≤ i → i < skipPure sc pos → ∃ t, sc.toks[i]? = some (.tok t) ∧
         (allREtest SPACE_RE t.text = true ∨ allREtest LINE_COMMENT_RE t.text = true)) ∧
      (∀ t, sc.toks[skipPure sc pos]? = some (.tok t) →
         allREtest SPACE_RE t.text = false ∧ allREtest LINE_COMMENT_RE t.text = false) := by
  intro n
  induction n with
  | zero =>
    intro pos hlen
    have he : sc.toks[pos]? = none := List.getElem?_eq_none (by omega)
    refine skipPure_props_stop sc pos (by rw [skipPure_unfold, he]) (fun t ht => ?_)
    rw [he] at ht
    exact Option.noConfusion ht
  | succ n ih =>
    intro pos hlen
    cases he : sc.toks[pos]? with
    | none =>
      refine skipPure_props_stop sc pos (by rw [skipPure_unfold, he]) (fun t ht => ?_)
      rw [he] at ht
      exact Option.noConfusion ht
    | some el =>
      cases el with
      | hole k =>
        refine skipPure_props_stop sc pos (by rw [skipPure_unfold, he]) (fun t ht => ?_)
        rw [he] at ht
        injection ht with ht3
        exact Elem.noConfusion ht3
      | tok t =>
        have hp : pos < sc.toks.length := (List.getElem?_eq_some_iff.mp he).1
        cases hs : isFAIL (rule_SPACE sc pos).2 with
        | false =>
          obtain ⟨t2, ht2, hmt⟩ := (rule_SPACE_success hs).2
          rw [he] at ht2
          injection ht2 with ht3
          injection ht3 with ht4
          subst ht4
          have heq : skipPure sc pos = skipPure sc (pos + 1) := skipPure_space hs
          obtain ⟨ih1, ih2, ih3, ih4⟩ := ih (pos + 1) (by omega)
          rw [heq]
          refine ⟨Nat.le_trans (Nat.le_succ _) ih1, fun _ => ih2 hp, ?_, ih4⟩
          intro i h1 h2
          rcases Nat.eq_or_lt_of_le h1 with h1e | h1l
          · subst h1e
            exact ⟨t, he, Or.inl hmt⟩
          · exact ih3 i h1l h2
        | true =>
          cases hc : isFAIL (rule_COMMENT sc pos).2 with
          | false =>
            obtain ⟨t2, ht2, hmt⟩ := (rule_COMMENT_success hc).2
            rw [he] at ht2
            injection ht2 with ht3
            injection ht3 with ht4
            subst ht4
            have heq : skipPure sc pos = skipPure sc (pos + 1) := skipPure_comment hs hc
            obtain ⟨ih1, ih2, ih3, ih4⟩ := ih (pos + 1) (by omega)
            rw [heq]
            refine ⟨Nat.le_trans (Nat.le_succ _) ih1, fun _ => ih2 hp, ?_, ih4⟩
            intro i h1 h2
            rcases Nat.eq_or_lt_of_le h1 with h1e | h1l
            · subst h1e
              exact ⟨t, he, Or.inr hmt⟩
            · exact ih3 i h1l h2
          | true =>
            refine skipPure_props_stop sc pos (skipPure_stop hs hc) (fun t2 ht2 => ?_)
            rw [he] at ht2
            injection ht2 with ht3
            injection ht3 with ht4
            subst ht4
            exact ⟨skip_fail_tok he hs, skip_fail_tok he hc⟩

/-- `eatAfter` keeps the position between the post-SKIP position and
the end. -/
theorem eatAfter_bounds (sc : Ctx) (pos1 : Nat) (p : Patt)
    (h2 : pos1 ≤ sc.toks.length) :
    pos1 ≤ (eatAfter sc pos1 p).1 ∧ (eatAfter sc pos1 p).1 ≤ sc.toks.length := by
  unfold eatAfter
  cases he : sc.toks[pos1]? with
  | none => exact ⟨Nat.le_refl _, h2⟩
  | some el =>
    cases el with
    | hole k => exact ⟨Nat.le_refl _, h2⟩
    | tok t =>
      have hp : pos1 < sc.toks.length := (List.getElem?_eq_some_iff.mp he).1
      dsimp only []
      by_cases ht : pattTest p t.text = true
      · rw [if_pos ht]
        exact ⟨Nat.le_succ _, hp⟩
      · rw [if_neg ht]
        exact ⟨Nat.le_refl _, h2⟩

/-- `identAfter` keeps the position between `pos1` and the end. -/
theorem identAfter_bounds (sc : Ctx) (pos1 : Nat) (h2 : pos1 ≤ sc.toks.length) :
    pos1 ≤ (identAfter sc pos1).1 ∧ (identAfter sc pos1).1 ≤ sc.toks.length := by
  unfold identAfter
  cases he : sc.toks[pos1]? with
  | none => exact ⟨Nat.le_refl _, h2⟩
  | some el =>
    cases el with
    | hole k => exact ⟨Nat.le_refl _, h2⟩
    | tok t =>
      have hp : pos1 < sc.toks.length := (List.getElem?_eq_some_iff.mp he).1
      dsimp only []
      by_cases ht : (allREtest IDENT_RE t.text && !(sc.keywords.contains t.text)) = true
      · rw [if_pos ht]
        exact ⟨Nat.le_succ _, hp⟩
      · rw [if_neg ht]
        exact ⟨Nat.le_refl _, h2⟩

/-- `holeAfter` keeps the position between `pos1` and the end. -/
theorem holeAfter_bounds (sc : Ctx) (pos1 : Nat) (h2 : pos1 ≤ sc.toks.length) :
    pos1 ≤ (holeAfter sc pos1).1 ∧ (holeAfter sc pos1).1 ≤ sc.toks.length := by
  unfold holeAfter
  cases he : sc.toks[pos1]? with
  | none => exact ⟨Nat.le_refl _, h2⟩
  | some el =>
    cases el with
    | tok t => exact ⟨Nat.le_refl _, h2⟩
    | hole k =>
      have hp : pos1 < sc.toks.length := (List.getElem?_eq_some_iff.mp he).1
      exact ⟨Nat.le_succ _, hp⟩

/-- `eofAfter` does not move the position. -/
theorem eofAfter_fst (sc : Ctx) (pos1 : Nat) : (eofAfter sc pos1).1 = pos1 := rfl

/-- One-step unfolding of the lexer loop. -/
theorem lexLoop_succ (segnum : Nat) (segment : List Char)
    (fuel expectedIndex lastIndex : Nat) (acc : List Token) :
    lexLoop segnum segment (fuel + 1) expectedIndex lastIndex acc =
      (if lastIndex < segment.length then
        match stickyFirst TOKEN_RE.ast (segment.drop lastIndex) with
        | none =>
            .error (.unexpected ⟨String.mk segment, ⟨segnum, 0, segment.length⟩⟩)
        | some rest =>
            let text := (segment.drop lastIndex).take
                          ((segment.drop lastIndex).length - rest.length)
            let newLastIndex := lastIndex + text.length
            let actualStart := newLastIndex - text.length
            let tok : Token := ⟨String.mk text, ⟨segnum, actualStart, newLastIndex⟩⟩
            if expectedIndex ≠ actualStart then .error (.internal tok expectedIndex)
            else lexLoop segnum segment fuel newLastIndex newLastIndex (acc ++ [tok])
      else .ok acc) := rfl

/-! ## The specification claims -/

/-- Claim C2: when `run(ruleOrPatt, pos, name)` finds the `LEFT_RECUR`
sentinel already stored in the memo at `(pos, ruleOrPatt)` — the same
(position, rule) pair re-entered while its first evaluation is in
progress — it raises the non-recoverable error whose message is
"Left recursion on rule: name" instead of looping or returning a result
(scanner.es6 l.195-202). -/
theorem C2_left_recursion (f : Nat) (G : Grammar) (sc : Ctx) (key : Key)
    (name : String) (pos : Nat) (st : PState)
    (h : memoEntry (ensureP st.memo pos) pos key = some .leftRecur) :
    exec (f + 1) true G sc (.runK key name pos) st = .error (.leftRecursion name) ∧
    (Err.leftRecursion name).message = "Left recursion on rule: " ++ name := by
  constructor
  · rw [exec_runK, if_pos rfl, h]
  · rfl

theorem C2_left_recursion_witness :
    memoEntry (ensureP (probeState freshState 0 (.rule "a")).memo 0) 0 (.rule "a") =
        some .leftRecur ∧
    exec 4 true [] (⟨[], []⟩ : Ctx) (.runK (.rule "a") "a" 0)
        (probeState freshState 0 (.rule "a")) = .error (.leftRecursion "a") :=
  ⟨rfl, (C2_left_recursion 3 [] ⟨[], []⟩ (.rule "a") "a" 0
      (probeState freshState 0 (.rule "a")) rfl).1⟩

/-- Claim C3 (amended): a completed `eat(pos, patt)` activation first
runs SKIP, reaching `pos1 = skipPure sc pos`; if the element at `pos1`
is a token (not a hole) whose text equals a string pattern, or fully
matches a regex pattern anchored, the result is `(pos1 + 1, text)`;
otherwise `(pos1, FAIL)` — the FAIL result carries the POST-SKIP
position, not the position `eat` was called with, because l.358
reassigns `pos` by destructuring (`[pos] = this.rule_SKIP(pos)`) before
the final `return [pos, FAIL]` (scanner.es6 l.357-369). -/
theorem C3_eat (G : Grammar) (sc : Ctx) (hwf : WFG G) (pos : Nat) (patt : Patt)
    (f : Nat) (m : Bool) (st : PState) (hmo : MemoOK G sc st) (r : Res) (st' : PState)
    (h : exec f m G sc (.eatK pos patt) st = .ok (r, st')) :
    r = (match sc.toks[skipPure sc pos]? with
         | some (.tok t) =>
           if pattTest patt t.text then (skipPure sc pos + 1, .str t.text)
           else (skipPure sc pos, .FAIL)
         | _ => (skipPure sc pos, .FAIL)) := by
  obtain ⟨-, g, hg⟩ := exec_sound f m G sc _ st r st' hwf hmo h
  rw [evalPure_eatK] at hg
  injection hg with hg2
  rw [← hg2]
  rfl

theorem C3_eat_witness :
    WFG ([] : Grammar) ∧
    ((1, RVal.str "x") : Res) =
      (match (⟨[.tok ⟨"x", ⟨0, 0, 1⟩⟩], []⟩ : Ctx).toks[skipPure ⟨[.tok ⟨"x", ⟨0, 0, 1⟩⟩], []⟩ 0]? with
       | some (.tok t) =>
         if pattTest (.lit "x") t.text then (skipPure (⟨[.tok ⟨"x", ⟨0, 0, 1⟩⟩], []⟩ : Ctx) 0 + 1, .str t.text)
         else (skipPure (⟨[.tok ⟨"x", ⟨0, 0, 1⟩⟩], []⟩ : Ctx) 0, .FAIL)
       | _ => (skipPure (⟨[.tok ⟨"x", ⟨0, 0, 1⟩⟩], []⟩ : Ctx) 0, .FAIL)) :=
  ⟨by decide,
    C3_eat [] ⟨[.tok ⟨"x", ⟨0, 0, 1⟩⟩], []⟩ (by decide) 0 (.lit "x") 9 true freshState
      (memoOK_fresh [] ⟨[.tok ⟨"x", ⟨0, 0, 1⟩⟩], []⟩) (1, .str "x") _ rfl⟩

/-- Counterexample to claim C3 as frozen: `eat(0, "x")` over the stream
`[" ", "y"]` runs SKIP, which consumes the space and reaches position 1;
the token there is `"y" ≠ "x"`, and the actual run returns the FAIL
result at the post-SKIP position 1 — not at the call position 0 the
claim asserts — because `[pos] = this.rule_SKIP(pos)` (l.358) reassigned
`pos` before `return [pos, FAIL]` (l.368). -/
theorem C3_counterexample :
    exec 9 true [] (⟨[.tok ⟨" ", ⟨0, 0, 1⟩⟩, .tok ⟨"y", ⟨0, 1, 2⟩⟩], []⟩ : Ctx)
        (.eatK 0 (.lit "x")) freshState =
      .ok ((1, .FAIL),
        ⟨[(1, [(.rule "COMMENT", .res (1, .FAIL))])], 0, 1⟩) ∧
    skipPure (⟨[.tok ⟨" ", ⟨0, 0, 1⟩⟩, .tok ⟨"y", ⟨0, 1, 2⟩⟩], []⟩ : Ctx) 0 = 1 ∧
    ((1, RVal.FAIL) : Res) ≠ ((0, RVal.FAIL) : Res) :=
  ⟨rfl, rfl, fun hc => absurd (congrArg Prod.fst hc) (by decide)⟩

/-- Claim C7: `anyRE(...REs)` returns a regex whose source is the
`|`-join of the inputs' sources, with ordered-alternation semantics: the
candidate-match enumeration of the result is the concatenation of the
inputs' enumerations in argument order (so the first alternative that
matches wins), and the anchored whole-string test of the result succeeds
exactly when some input's anchored test succeeds
(scanner.es6 l.34-36). -/
theorem C7_anyRE (r : JSRegExp) (rs : List JSRegExp) (n : Nat) (s : List Char)
    (t : String) :
    (anyRE (r :: rs)).source =
        String.intercalate "|" ((r :: rs).map (fun x => x.source)) ∧
    msplits n (anyRE (r :: rs)).ast s =
        msplits n r.ast s ++ (rs.map (fun x => msplits n x.ast s)).flatten ∧
    allREtest (anyRE (r :: rs)) t = (r :: rs).any (fun x => allREtest x t) := by
  refine ⟨rfl, ?_, ?_⟩
  · show msplits n (altList ((r :: rs).map (fun x => x.ast))) s = _
    rw [List.map_cons, msplits_altList]
    simp only [List.map_map]
    rfl
  · show (msplits t.data.length (altList ((r :: rs).map (fun x => x.ast))) t.data).any
        (fun s1 => s1.isEmpty) = _
    rw [List.map_cons, msplits_altList, List.any_append, List.map_map, any_flatten_map]
    rfl

/-- Claim C9 (amended): when the token regex fails to match at the
current offset while unconsumed input remains in the segment, the lexer
raises a lexical error and returns no token list; but because the
failed sticky `exec` resets `RE.lastIndex` to 0 before the code reads
it (ECMAScript sticky semantics; explicit in the shim, l.59-68), the
error's token carries the WHOLE segment with Position
(segmentNum, 0, segment.length) — not the unclassifiable remaining
slice at the failing offset (scanner.es6 l.102-108). -/
theorem C9_lexical_error (segnum : Nat) (segment : List Char)
    (fuel expectedIndex lastIndex : Nat) (acc : List Token)
    (hrem : lastIndex < segment.length)
    (hfail : stickyFirst TOKEN_RE.ast (segment.drop lastIndex) = none) :
    lexLoop segnum segment (fuel + 1) expectedIndex lastIndex acc =
      .error (.unexpected ⟨String.mk segment, ⟨segnum, 0, segment.length⟩⟩) := by
  rw [lexLoop_succ, if_pos hrem, hfail]

theorem C9_lexical_error_witness :
    (1 : Nat) < (['a', '!', 'b'] : List Char).length ∧
    stickyFirst TOKEN_RE.ast ((['a', '!', 'b'] : List Char).drop 1) = none ∧
    lexLoop 0 ['a', '!', 'b'] 1 1 1 [] =
      .error (.unexpected ⟨String.mk ['a', '!', 'b'],
                           ⟨0, 0, (['a', '!', 'b'] : List Char).length⟩⟩) :=
  ⟨by decide, rfl, C9_lexical_error 0 ['a', '!', 'b'] 0 1 1 [] (by decide) rfl⟩

/-- Counterexample to claim C9 as frozen: lexing the segment `"a!b"`
tokenizes `"a"` and then fails at offset 1, yet the actual error
carries the whole segment `"a!b"` at Position (0, 0, 3) — not the
unclassifiable remaining slice `"!b"` at its Position (0, 1, 3) as the
claim asserts — because the failed sticky `exec` reset `RE.lastIndex`
to 0 before `tokensInSegment` read it to build the token. -/
theorem C9_counterexample :
    tokensInSegment 0 "a!b" = .error (.unexpected ⟨"a!b", ⟨0, 0, 3⟩⟩) ∧
    stickyFirst TOKEN_RE.ast (("a!b" : String).data.drop 1) = none ∧
    (1 : Nat) < ("a!b" : String).data.length ∧
    (LexErr.unexpected ⟨"a!b", ⟨0, 0, 3⟩⟩ ≠ LexErr.unexpected ⟨"!b", ⟨0, 1, 3⟩⟩) :=
  ⟨rfl, rfl, by decide, by decide⟩

/-- Claim C10: every Scanner terminal operation — `skip`, `rule_SPACE`,
`rule_COMMENT`, `rule_SKIP`, `eat`, `rule_NUMBER`, `rule_STRING`,
`rule_IDENT`, `rule_HOLE`, `rule_EOF` — maps a position `pos ≤ length`
to a returned position between `pos` and the stream length, on success
and on FAIL alike (scanner.es6 l.314-395). -/
theorem C10_position_bounds (sc : Ctx) (pos : Nat) (hpos : pos ≤ sc.toks.length) :
    (∀ r : JSRegExp, pos ≤ (skip sc pos r).1 ∧ (skip sc pos r).1 ≤ sc.toks.length) ∧
    (pos ≤ (rule_SPACE sc pos).1 ∧ (rule_SPACE sc pos).1 ≤ sc.toks.length) ∧
    (pos ≤ (rule_COMMENT sc pos).1 ∧ (rule_COMMENT sc pos).1 ≤ sc.toks.length) ∧
    (pos ≤ skipPure sc pos ∧ skipPure sc pos ≤ sc.toks.length) ∧
    (∀ p : Patt, pos ≤ (eatPure sc pos p).1 ∧ (eatPure sc pos p).1 ≤ sc.toks.length) ∧
    (pos ≤ (rule_NUMBER_pure sc pos).1 ∧ (rule_NUMBER_pure sc pos).1 ≤ sc.toks.length) ∧
    (pos ≤ (rule_STRING_pure sc pos).1 ∧ (rule_STRING_pure sc pos).1 ≤ sc.toks.length) ∧
    (pos ≤ (rule_IDENT_pure sc pos).1 ∧ (rule_IDENT_pure sc pos).1 ≤ sc.toks.length) ∧
    (pos ≤ (rule_HOLE_pure sc pos).1 ∧ (rule_HOLE_pure sc pos).1 ≤ sc.toks.length) ∧
    (pos ≤ (rule_EOF_pure sc pos).1 ∧ (rule_EOF_pure sc pos).1 ≤ sc.toks.length) := by
  obtain ⟨hs1, hs2, -, -⟩ := skipPure_props sc sc.toks.length pos (by omega)
  have hsu : skipPure sc pos ≤ sc.toks.length := hs2 hpos
  have heat : ∀ p : Patt,
      pos ≤ (eatPure sc pos p).1 ∧ (eatPure sc pos p).1 ≤ sc.toks.length :=
    fun p =>
      ⟨Nat.le_trans hs1 (eatAfter_bounds sc (skipPure sc pos) p hsu).1,
       (eatAfter_bounds sc (skipPure sc pos) p hsu).2⟩
  have hid := identAfter_bounds sc (skipPure sc pos) hsu
  have hhl := holeAfter_bounds sc (skipPure sc pos) hsu
  refine ⟨fun r => skip_bounds sc pos r hpos,
    skip_bounds sc pos SPACE_RE hpos,
    skip_bounds sc pos LINE_COMMENT_RE hpos,
    ⟨hs1, hsu⟩, heat, heat (.reg .number), heat (.reg .string_),
    ⟨Nat.le_trans hs1 hid.1, hid.2⟩,
    ⟨Nat.le_trans hs1 hhl.1, hhl.2⟩, ?_⟩
  rw [show (rule_EOF_pure sc pos).1 = skipPure sc pos from rfl]
  exact ⟨hs1, hsu⟩

theorem C10_position_bounds_witness :
    (0 : Nat) ≤ (⟨[.tok ⟨" ", ⟨0, 0, 1⟩⟩], []⟩ : Ctx).toks.length ∧
    (0 ≤ skipPure (⟨[.tok ⟨" ", ⟨0, 0, 1⟩⟩], []⟩ : Ctx) 0 ∧
      skipPure (⟨[.tok ⟨" ", ⟨0, 0, 1⟩⟩], []⟩ : Ctx) 0 ≤
        (⟨[.tok ⟨" ", ⟨0, 0, 1⟩⟩], []⟩ : Ctx).toks.length) :=
  ⟨by decide,
    (C10_position_bounds ⟨[.tok ⟨" ", ⟨0, 0, 1⟩⟩], []⟩ 0 (by decide)).2.2.2.1⟩

/-- Claim C8: a completed `rule_SKIP(pos)` activation never returns
FAIL: its result is `(pos1, "")` where `pos1` is reached from `pos` by
consuming zero or more consecutive SPACE- or COMMENT-matching tokens;
it stops on the first token matching neither, and it stops immediately
on a hole marker, so holes are never consumed (scanner.es6 l.338-355). -/
theorem C8_rule_SKIP (G : Grammar) (sc : Ctx) (hwf : WFG G) (f : Nat) (m : Bool)
    (st : PState) (hmo : MemoOK G sc st) (pos : Nat) (r : Res) (st' : PState)
    (h : exec f m G sc (.skipK pos) st = .ok (r, st')) :
    r = (skipPure sc pos, .str "") ∧ isFAIL r.2 = false ∧
    pos ≤ skipPure sc pos ∧
    (∀ i, pos ≤ i → i < skipPure sc pos → ∃ t, sc.toks[i]? = some (.tok t) ∧
       (allREtest SPACE_RE t.text = true ∨ allREtest LINE_COMMENT_RE t.text = true)) ∧
    (∀ t, sc.toks[skipPure sc pos]? = some (.tok t) →
       allREtest SPACE_RE t.text = false ∧ allREtest LINE_COMMENT_RE t.text = false) ∧
    (∀ k, sc.toks[pos]? = some (.hole k) → skipPure sc pos = pos) := by
  obtain ⟨-, g, hg⟩ := exec_sound f m G sc _ st r st' hwf hmo h
  rw [evalPure_skipK] at hg
  injection hg with hg2
  obtain ⟨p1, p2, p3, p4⟩ := skipPure_props sc sc.toks.length pos (by omega)
  refine ⟨hg2.symm, ?_, p1, p3, p4, ?_⟩
  · rw [← hg2]
    rfl
  · intro k hk
    rw [skipPure_unfold, hk]

theorem C8_rule_SKIP_witness :
    WFG ([] : Grammar) ∧
    ((1, RVal.str "") : Res) =
      (skipPure (⟨[.tok ⟨" ", ⟨0, 0, 1⟩⟩, .hole 0], []⟩ : Ctx) 0, .str "") :=
  ⟨by decide,
    (C8_rule_SKIP [] ⟨[.tok ⟨" ", ⟨0, 0, 1⟩⟩, .hole 0], []⟩ (by decide) 9 true freshState
      (memoOK_fresh [] ⟨[.tok ⟨" ", ⟨0, 0, 1⟩⟩, .hole 0], []⟩) 0 (1, .str "") _ rfl).1⟩

/-- Claim C1: for every rule-set (not shadowing the builtin terminal
rules) and every token stream, any two completed parses on fresh
Packratter substrates — memoizing or not, run back-to-back with any
sufficient fuels — return identical results, and whenever any parse
completes, the variant of `run` in which every memo probe misses also
completes with that very result (only the substrate counters can
differ); scanner.es6 l.186-214. -/
theorem C1_memoization_equivalence (G : Grammar) (sc : Ctx) (hwf : WFG G)
    (m1 m2 : Bool) (f1 f2 : Nat) (r1 r2 : Res)
    (h1 : parseRes m1 f1 G sc = some r1)
    (h2 : parseRes m2 f2 G sc = some r2) :
    r1 = r2 ∧ ∃ fn, parseRes false fn G sc = some r1 := by
  unfold parseRes at h1 h2
  cases hp1 : parse m1 f1 G sc with
  | error e => rw [hp1] at h1; exact Option.noConfusion h1
  | ok rs1 =>
    obtain ⟨ra, sta⟩ := rs1
    rw [hp1] at h1
    injection h1 with h1e
    subst h1e
    cases hp2 : parse m2 f2 G sc with
    | error e => rw [hp2] at h2; exact Option.noConfusion h2
    | ok rs2 =>
      obtain ⟨rb, stb⟩ := rs2
      rw [hp2] at h2
      injection h2 with h2e
      subst h2e
      unfold parse at hp1 hp2
      obtain ⟨-, g1, hg1⟩ :=
        exec_sound f1 m1 G sc _ freshState ra sta hwf (memoOK_fresh G sc) hp1
      obtain ⟨-, g2, hg2⟩ :=
        exec_sound f2 m2 G sc _ freshState rb stb hwf (memoOK_fresh G sc) hp2
      have e1 := evalPure_mono_le (Nat.le_max_left (g1 + 1) (g2 + 1)) hg1
      have e2 := evalPure_mono_le (Nat.le_max_right (g1 + 1) (g2 + 1)) hg2
      rw [e1] at e2
      injection e2 with e3
      refine ⟨e3, ?_⟩
      obtain ⟨fn, hfn⟩ := exec_complete G sc hwf (g1 + 1) _ ra hg1
      obtain ⟨stn, hn⟩ := hfn freshState
      refine ⟨fn, ?_⟩
      unfold parseRes parse
      rw [hn]

theorem C1_memoization_equivalence_witness :
    WFG [("start", PExp.term (.lit "x"))] ∧
    parseRes true 9 [("start", PExp.term (.lit "x"))] ⟨[.tok ⟨"x", ⟨0, 0, 1⟩⟩], []⟩ =
      some (1, .str "x") ∧
    parseRes false 9 [("start", PExp.term (.lit "x"))] ⟨[.tok ⟨"x", ⟨0, 0, 1⟩⟩], []⟩ =
      some (1, .str "x") ∧
    (((1 : Nat), RVal.str "x") = ((1 : Nat), RVal.str "x") ∧
      ∃ fn, parseRes false fn [("start", PExp.term (.lit "x"))]
        ⟨[.tok ⟨"x", ⟨0, 0, 1⟩⟩], []⟩ = some (1, .str "x")) :=
  ⟨by decide, rfl, rfl,
    C1_memoization_equivalence [("start", PExp.term (.lit "x"))]
      ⟨[.tok ⟨"x", ⟨0, 0, 1⟩⟩], []⟩ (by decide) true false 9 9
      (1, .str "x") (1, .str "x") rfl rfl⟩

/-! ## Template interleaving lemmas (for claim C4) -/

/-- One-step unfolding of the template lexer. -/
theorem tokensInTemplateGo_cons (segnum : Nat) (seg : String) (rest : List String) :
    tokensInTemplateGo segnum (seg :: rest) =
      (match tokensInSegment segnum seg with
       | .error e => .error e
       | .ok ts =>
         match rest with
         | [] => .ok (ts.map Elem.tok)
         | _ :: _ =>
           match tokensInTemplateGo (segnum + 1) rest with
           | .error e => .error e
           | .ok more => .ok (ts.map Elem.tok ++ Elem.hole segnum :: more)) := rfl

/-- Token elements contribute no hole numbers. -/
theorem filterMap_tok_none (ts : List Token) :
    (ts.map Elem.tok).filterMap
        (fun e => match e with | Elem.hole j => some j | _ => none) = ([] : List Nat) := by
  induction ts with
  | nil => rfl
  | cons t rest ih =>
    rw [List.map_cons, List.filterMap_cons]
    exact ih

/-- The hole numbers of an interleaved stream are consecutive from the
starting index. -/
theorem interleaveHoles_holes :
    ∀ (tss : List (List Token)) (k : Nat),
      (interleaveHoles k tss).filterMap
          (fun e => match e with | Elem.hole j => some j | _ => none) =
        List.range' k (tss.length - 1) := by
  intro tss
  induction tss with
  | nil => intro k; rfl
  | cons ts rest ih =>
    intro k
    cases rest with
    | nil =>
      show (ts.map Elem.tok).filterMap
          (fun e => match e with | Elem.hole j => some j | _ => none) = List.range' k 0
      rw [filterMap_tok_none]
      rfl
    | cons ts2 rest2 =>
      show ((ts.map Elem.tok) ++ Elem.hole k :: interleaveHoles (k + 1) (ts2 :: rest2)).filterMap
          (fun e => match e with | Elem.hole j => some j | _ => none) =
        List.range' k ((ts :: ts2 :: rest2).length - 1)
      rw [List.filterMap_append, filterMap_tok_none, List.filterMap_cons, List.nil_append]
      show k :: (interleaveHoles (k + 1) (ts2 :: rest2)).filterMap
          (fun e => match e with | Elem.hole j => some j | _ => none) =
        List.range' k ((ts :: ts2 :: rest2).length - 1)
      rw [ih (k + 1)]
      simp only [List.length_cons, Nat.add_sub_cancel]
      rfl

/-- The length of an interleaved stream: total tokens plus one hole per
gap. -/
theorem interleaveHoles_length :
    ∀ (tss : List (List Token)) (k : Nat),
      (interleaveHoles k tss).length = (tss.map List.length).sum + (tss.length - 1) := by
  intro tss
  induction tss with
  | nil => intro k; rfl
  | cons ts rest ih =>
    intro k
    cases rest with
    | nil =>
      show (ts.map Elem.tok).length = _
      simp
    | cons ts2 rest2 =>
      show ((ts.map Elem.tok) ++ Elem.hole k :: interleaveHoles (k + 1) (ts2 :: rest2)).length = _
      rw [List.length_append, List.length_cons, ih (k + 1)]
      simp only [List.length_map, List.map_cons, List.sum_cons, List.length_cons]
      omega

/-- Decomposition of a successful template lex: each segment lexes on
its own, and the stream is the interleaving of the segments' token lists
with hole markers. -/
theorem tokensInTemplateGo_ok :
    ∀ (template : List String) (segnum : Nat) (stream : List Elem),
      tokensInTemplateGo segnum template = .ok stream →
      ∃ tss : List (List Token),
        tss.length = template.length ∧
        (∀ i (hi : i < template.length),
          tokensInSegment (segnum + i) (template.get ⟨i, hi⟩) = .ok (tss.getD i [])) ∧
        stream = interleaveHoles segnum tss := by
  intro template
  induction template with
  | nil =>
    intro segnum stream h
    injection h with h2
    subst h2
    exact ⟨[], rfl, fun i hi => absurd hi (Nat.not_lt_zero i), rfl⟩
  | cons seg rest ih =>
    intro segnum stream h
    rw [tokensInTemplateGo_cons] at h
    cases hseg : tokensInSegment segnum seg with
    | error e => rw [hseg] at h; exact Except.noConfusion h
    | ok ts =>
      rw [hseg] at h
      cases rest with
      | nil =>
        dsimp only [] at h
        injection h with h2
        subst h2
        refine ⟨[ts], rfl, ?_, rfl⟩
        intro i hi
        have h0 : i = 0 := by
          simp only [List.length_cons, List.length_nil] at hi
          omega
        subst h0
        simpa using hseg
      | cons seg2 rest2 =>
        dsimp only [] at h
        cases hgo : tokensInTemplateGo (segnum + 1) (seg2 :: rest2) with
        | error e => rw [hgo] at h; exact Except.noConfusion h
        | ok more =>
          rw [hgo] at h
          dsimp only [] at h
          injection h with h2
          subst h2
          obtain ⟨tss, hlen, hsegs, hstream⟩ := ih (segnum + 1) more hgo
          refine ⟨ts :: tss, by simp [hlen], ?_, ?_⟩
          · intro i hi
            cases i with
            | zero => simpa using hseg
            | succ j =>
              have hj : j < (seg2 :: rest2).length := by
                simp only [List.length_cons] at hi ⊢
                omega
              have hjj := hsegs j hj
              have harith : segnum + (j + 1) = segnum + 1 + j := by omega
              rw [harith]
              simpa using hjj
          · cases tss with
            | nil => simp at hlen
            | cons ts0 tss2 =>
              show ts.map Elem.tok ++ Elem.hole segnum :: more =
                interleaveHoles segnum (ts :: ts0 :: tss2)
              rw [hstream]
              rfl

/-- Claim C4: for every template of `n + 1` segments that lexes
successfully, the token stream contains exactly `n` hole markers, the
`k`-th equal to `k` and placed immediately after the tokens of segment
`k`, and the stream length is the total token count across segments
plus `n` (scanner.es6 l.126-136). -/
theorem C4_template_stream (template : List String) (stream : List Elem)
    (h : tokensInTemplate template = .ok stream) :
    ∃ tss : List (List Token),
      tss.length = template.length ∧
      (∀ i (hi : i < template.length),
        tokensInSegment i (template.get ⟨i, hi⟩) = .ok (tss.getD i [])) ∧
      stream = interleaveHoles 0 tss ∧
      stream.filterMap (fun e => match e with | Elem.hole j => some j | _ => none) =
        List.range (template.length - 1) ∧
      stream.length = (tss.map List.length).sum + (template.length - 1) := by
  obtain ⟨tss, hlen, hsegs, hstream⟩ := tokensInTemplateGo_ok template 0 stream h
  refine ⟨tss, hlen, ?_, hstream, ?_, ?_⟩
  · intro i hi
    simpa using hsegs i hi
  · rw [hstream, interleaveHoles_holes, hlen]
    exact (List.range_eq_range' _).symm
  · rw [hstream, interleaveHoles_length, hlen]

theorem C4_template_stream_witness :
    tokensInTemplate ["x", "y"] =
      .ok [.tok ⟨"x", ⟨0, 0, 1⟩⟩, .hole 0, .tok ⟨"y", ⟨1, 0, 1⟩⟩] ∧
    ∃ tss : List (List Token),
      tss.length = (["x", "y"] : List String).length ∧
      (∀ i (hi : i < (["x", "y"] : List String).length),
        tokensInSegment i ((["x", "y"] : List String).get ⟨i, hi⟩) = .ok (tss.getD i [])) ∧
      ([.tok ⟨"x", ⟨0, 0, 1⟩⟩, .hole 0, .tok ⟨"y", ⟨1, 0, 1⟩⟩] : List Elem) =
        interleaveHoles 0 tss ∧
      ([.tok ⟨"x", ⟨0, 0, 1⟩⟩, .hole 0, .tok ⟨"y", ⟨1, 0, 1⟩⟩] : List Elem).filterMap
          (fun e => match e with | Elem.hole j => some j | _ => none) =
        List.range ((["x", "y"] : List String).length - 1) ∧
      ([.tok ⟨"x", ⟨0, 0, 1⟩⟩, .hole 0, .tok ⟨"y", ⟨1, 0, 1⟩⟩] : List Elem).length =
        (tss.map List.length).sum + ((["x", "y"] : List String).length - 1) :=
  ⟨rfl, C4_template_stream ["x", "y"]
    [.tok ⟨"x", ⟨0, 0, 1⟩⟩, .hole 0, .tok ⟨"y", ⟨1, 0, 1⟩⟩] rfl⟩

/-! ## Lexer totality (for claim C5) -/

/-- The lexer loop invariant: when every remaining offset is matchable,
the loop completes, the produced tokens concatenate to the remaining
input, and their spans chain from the current offset. -/
theorem lexLoop_total (segnum : Nat) (segment : List Char) :
    ∀ fuel lastIndex (acc : List Token),
      (∀ i, lastIndex ≤ i → i < segment.length →
        (stickyFirst TOKEN_RE.ast (segment.drop i)).isSome = true) →
      lastIndex ≤ segment.length →
      segment.length - lastIndex < fuel →
      ∃ toks, lexLoop segnum segment fuel lastIndex lastIndex acc = .ok (acc ++ toks) ∧
        (toks.map (fun t => t.text.data)).flatten = segment.drop lastIndex ∧
        chainedFrom segnum lastIndex toks = true := by
  intro fuel
  induction fuel with
  | zero =>
    intro lastIndex acc hmatch hle hfuel
    exact absurd hfuel (Nat.not_lt_zero _)
  | succ fuel ih =>
    intro lastIndex acc hmatch hle hfuel
    by_cases hlt : lastIndex < segment.length
    · have hsome := hmatch lastIndex (Nat.le_refl _) hlt
      cases hst : stickyFirst TOKEN_RE.ast (segment.drop lastIndex) with
      | none => rw [hst] at hsome; simp at hsome
      | some rest =>
        obtain ⟨hsuf, hstrict⟩ := stickyFirst_suffix hst
        have hlt2 : rest.length < (segment.drop lastIndex).length :=
          hstrict TOKEN_RE_not_nullable
        obtain ⟨pre, hpre⟩ := hsuf
        have hplen : pre.length + rest.length = (segment.drop lastIndex).length := by
          rw [← hpre, List.length_append]
        have hdlen : (segment.drop lastIndex).length = segment.length - lastIndex := by
          simp
        have hpre1 : 1 ≤ pre.length := by omega
        have htext : (segment.drop lastIndex).take
            ((segment.drop lastIndex).length - rest.length) = pre := by
          rw [← hpre, List.length_append, Nat.add_sub_cancel, List.take_left]
        have hdd : segment.drop (lastIndex + pre.length) = rest := by
          have h1 : (segment.drop lastIndex).drop pre.length = rest := by
            rw [← hpre, List.drop_left]
          rw [List.drop_drop] at h1
          simpa [Nat.add_comm] using h1
        obtain ⟨toks2, hok2, hflat2, hchain2⟩ :=
          ih (lastIndex + pre.length)
            (acc ++ [⟨String.mk pre, ⟨segnum, lastIndex, lastIndex + pre.length⟩⟩])
            (fun i h1 h2 => hmatch i (by omega) h2) (by omega) (by omega)
        refine ⟨⟨String.mk pre, ⟨segnum, lastIndex, lastIndex + pre.length⟩⟩ :: toks2,
          ?_, ?_, ?_⟩
        · rw [lexLoop_succ, if_pos hlt, hst]
          dsimp only []
          rw [htext, Nat.add_sub_cancel]
          rw [if_neg (fun hn => hn rfl)]
          rw [hok2, List.append_assoc]
          rfl
        · rw [List.map_cons, List.flatten_cons, hflat2, hdd]
          exact hpre
        · show ((segnum == segnum) && (lastIndex == lastIndex) &&
              (lastIndex + pre.length == lastIndex + pre.length) &&
              chainedFrom segnum (lastIndex + pre.length) toks2) = true
          rw [hchain2]
          simp
    · have heq : lastIndex = segment.length := by omega
      refine ⟨[], ?_, ?_, rfl⟩
      · rw [lexLoop_succ, if_neg hlt, List.append_nil]
      · rw [List.drop_eq_nil_of_le (by omega)]
        rfl

/-- Claim C5: for every segment whose text is entirely drawn from the
accepted alphabet — the token regex matches at every offset — the lexer
returns a token list whose concatenated texts equal the segment, with
each token's span starting exactly where the previous span ended, and no
error is raised (scanner.es6 l.96-121). -/
theorem C5_tokenization (segnum : Nat) (segment : String)
    (hmatch : ∀ i, i < segment.data.length →
      (stickyFirst TOKEN_RE.ast (segment.data.drop i)).isSome = true) :
    ∃ toks, tokensInSegment segnum segment = .ok toks ∧
      (toks.map (fun t => t.text.data)).flatten = segment.data ∧
      chainedFrom segnum 0 toks = true := by
  obtain ⟨toks, hok, hflat, hchain⟩ :=
    lexLoop_total segnum segment.data (segment.data.length + 1) 0 []
      (fun i _ hi => hmatch i hi) (Nat.zero_le _) (by omega)
  refine ⟨toks, ?_, by simpa using hflat, hchain⟩
  unfold tokensInSegment
  simpa using hok

theorem C5_tokenization_witness :
    (∀ i, i < ("a 1" : String).data.length →
      (stickyFirst TOKEN_RE.ast (("a 1" : String).data.drop i)).isSome = true) ∧
    ∃ toks, tokensInSegment 0 "a 1" = .ok toks ∧
      (toks.map (fun t => t.text.data)).flatten = ("a 1" : String).data ∧
      chainedFrom 0 0 toks = true :=
  ⟨by decide, C5_tokenization 0 "a 1" (by decide)⟩

/-! ## lastFailures characterization (for claim C6) -/

/-- The nested fold of `lastFailures` equals a flat fold over the
entries in traversal order. -/
theorem lastFailures_flat (memo : Memo) :
    lastFailures memo = (memoEntries memo).foldl lfStep (0, []) := by
  unfold lastFailures memoEntries
  generalize ((0, []) : Nat × List String) = a
  induction memo generalizing a with
  | nil => rfl
  | cons pposm rest ih =>
    rw [List.foldl_cons, List.flatMap_cons, List.foldl_append]
    exact ih _

theorem lfStep_rule (acc2 : Nat × List String) (n : String) (e : Entry) :
    lfStep acc2 (.rule n, e) = acc2 := by
  cases e <;> rfl

theorem lfStep_probe (acc2 : Nat × List String) (p : Patt) :
    lfStep acc2 (.patt p, .leftRecur) = acc2 := rfl

theorem lfStep_res (acc2 : Nat × List String) (p : Patt) (q : Nat) (v : RVal) :
    lfStep acc2 (.patt p, .res (q, v)) =
      (if isFAIL v then
        if q > acc2.1 then (q, [pattName p])
        else if q = acc2.1 then (acc2.1, acc2.2 ++ [pattName p])
        else acc2
      else acc2) := rfl

theorem mfpStep_rule (a : Nat) (n : String) (e : Entry) :
    mfpStep a (.rule n, e) = a := by
  cases e <;> rfl

theorem mfpStep_probe (a : Nat) (p : Patt) : mfpStep a (.patt p, .leftRecur) = a := rfl

theorem mfpStep_res (a : Nat) (p : Patt) (q : Nat) (v : RVal) :
    mfpStep a (.patt p, .res (q, v)) = (if isFAIL v then max a q else a) := rfl

theorem mfpL_cons (ke : Key × Entry) (rest : List (Key × Entry)) (a : Nat) :
    mfpL (ke :: rest) a = mfpL rest (mfpStep a ke) := rfl

theorem pfaL_rule (n : String) (e : Entry) (rest : List (Key × Entry)) (q : Nat) :
    pfaL ((.rule n, e) :: rest) q = pfaL rest q := by
  cases e <;> rfl

theorem pfaL_probe (p : Patt) (rest : List (Key × Entry)) (q : Nat) :
    pfaL ((.patt p, .leftRecur) :: rest) q = pfaL rest q := rfl

theorem pfaL_res (p : Patt) (qq : Nat) (v : RVal) (rest : List (Key × Entry)) (q : Nat) :
    pfaL ((.patt p, .res (qq, v)) :: rest) q =
      (if isFAIL v && qq == q then pattName p :: pfaL rest q else pfaL rest q) := by
  unfold pfaL
  rw [List.filterMap_cons]
  dsimp only []
  cases h : (isFAIL v && qq == q) with
  | false => rfl
  | true => rfl

/-- The running maximum never decreases. -/
theorem mfpL_ge : ∀ (l : List (Key × Entry)) (a : Nat), a ≤ mfpL l a := by
  intro l
  induction l with
  | nil => intro a; exact Nat.le_refl _
  | cons ke rest ih =>
    intro a
    rw [mfpL_cons]
    refine Nat.le_trans ?_ (ih (mfpStep a ke))
    obtain ⟨key, e⟩ := ke
    cases key with
    | rule n => rw [mfpStep_rule]
    | patt p =>
      cases e with
      | leftRecur => rw [mfpStep_probe]
      | res r =>
        obtain ⟨q, v⟩ := r
        rw [mfpStep_res]
        by_cases hf : isFAIL v = true
        · rw [if_pos hf]; exact Nat.le_max_left _ _
        · rw [if_neg hf]

/-- Every pattern-keyed FAIL position is bounded by the running
maximum. -/
theorem mfpL_mem :
    ∀ (l : List (Key × Entry)) (a : Nat) (p : Patt) (q : Nat) (v : RVal),
      (Key.patt p, Entry.res (q, v)) ∈ l → isFAIL v = true → q ≤ mfpL l a := by
  intro l
  induction l with
  | nil =>
    intro a p q v hmem
    exact absurd hmem (List.not_mem_nil _)
  | cons ke rest ih =>
    intro a p q v hmem hf
    rcases List.mem_cons.mp hmem with hmem | hmem
    · subst hmem
      rw [mfpL_cons, mfpStep_res, if_pos hf]
      exact Nat.le_trans (Nat.le_max_right a q) (mfpL_ge rest _)
    · rw [mfpL_cons]
      exact ih _ p q v hmem hf

/-- The flat `lastFailures` fold computes the maximum pattern-FAIL
position and the names failing there. -/
theorem lfStep_foldl :
    ∀ (l : List (Key × Entry)) (q0 : Nat) (ns0 : List String),
      l.foldl lfStep (q0, ns0) =
        (mfpL l q0,
         if mfpL l q0 = q0 then ns0 ++ pfaL l q0 else pfaL l (mfpL l q0)) := by
  intro l
  induction l with
  | nil =>
    intro q0 ns0
    show (q0, ns0) = (q0, if q0 = q0 then ns0 ++ pfaL [] q0 else pfaL [] q0)
    rw [if_pos rfl, show pfaL [] q0 = [] from rfl, List.append_nil]
  | cons ke rest ih =>
    intro q0 ns0
    rw [List.foldl_cons]
    obtain ⟨key, e⟩ := ke
    cases key with
    | rule n =>
      rw [lfStep_rule, ih q0 ns0, mfpL_cons, mfpStep_rule, pfaL_rule, pfaL_rule]
    | patt p =>
      cases e with
      | leftRecur =>
        rw [lfStep_probe, ih q0 ns0, mfpL_cons, mfpStep_probe, pfaL_probe, pfaL_probe]
      | res r =>
        obtain ⟨q, v⟩ := r
        rw [lfStep_res]
        by_cases hf : isFAIL v = true
        · rw [if_pos hf]
          rcases Nat.lt_trichotomy q0 q with hq | hq | hq
          · rw [if_pos hq, ih q [pattName p], mfpL_cons, mfpStep_res, if_pos hf,
              Nat.max_eq_right (Nat.le_of_lt hq)]
            have hqM : q ≤ mfpL rest q := mfpL_ge rest q
            rcases Nat.eq_or_lt_of_le hqM with hM | hM
            · rw [← hM, if_pos rfl, if_neg (show ¬(q = q0) by omega),
                pfaL_res, if_pos (show (isFAIL v && q == q) = true by simp [hf])]
              rfl
            · rw [if_neg (show ¬(mfpL rest q = q) by omega),
                if_neg (show ¬(mfpL rest q = q0) by omega),
                pfaL_res,
                if_neg (show ¬((isFAIL v && q == mfpL rest q) = true) by
                  simp [hf]
                  omega)]
          · subst hq
            rw [if_neg (Nat.lt_irrefl q0), if_pos rfl, ih q0 (ns0 ++ [pattName p]),
              mfpL_cons, mfpStep_res, if_pos hf, Nat.max_self]
            by_cases hM : mfpL rest q0 = q0
            · rw [if_pos hM, if_pos hM, pfaL_res,
                if_pos (show (isFAIL v && q0 == q0) = true by simp [hf]),
                List.append_assoc]
              rfl
            · have hgt : q0 < mfpL rest q0 := by
                have := mfpL_ge rest q0
                omega
              rw [if_neg hM, if_neg hM, pfaL_res,
                if_neg (show ¬((isFAIL v && q0 == mfpL rest q0) = true) by
                  simp [hf]
                  omega)]
          · rw [if_neg (show ¬(q > q0) by omega), if_neg (show ¬(q = q0) by omega),
              ih q0 ns0, mfpL_cons, mfpStep_res, if_pos hf,
              Nat.max_eq_left (Nat.le_of_lt hq)]
            by_cases hM : mfpL rest q0 = q0
            · rw [if_pos hM, if_pos hM, pfaL_res,
                if_neg (show ¬((isFAIL v && q == q0) = true) by
                  simp [hf]
                  omega)]
            · have hgt : q0 < mfpL rest q0 := by
                have := mfpL_ge rest q0
                omega
              rw [if_neg hM, if_neg hM, pfaL_res,
                if_neg (show ¬((isFAIL v && q == mfpL rest q0) = true) by
                  simp [hf]
                  omega)]
        · have hf2 : isFAIL v = false := by
            cases hfv : isFAIL v
            · rfl
            · exact absurd hfv hf
          rw [if_neg hf, ih q0 ns0, mfpL_cons, mfpStep_res, if_neg hf]
          by_cases hM : mfpL rest q0 = q0
          · rw [if_pos hM, if_pos hM, pfaL_res,
              if_neg (show ¬((isFAIL v && q == q0) = true) by simp [hf2])]
          · rw [if_neg hM, if_neg hM, pfaL_res,
              if_neg (show ¬((isFAIL v && q == mfpL rest q0) = true) by simp [hf2])]

/-- Claim C6 (amended): `lastFailures()` returns `(maxPos, fails)` where
`maxPos` is the largest `newPos` among the FAIL results stored under
terminal-pattern keys — so it is ≥ the `newPos` of every
pattern-keyed FAIL result, while procedure-keyed (rule) FAIL results are
skipped by the scan — and `fails` is the list of printable names of the
terminal patterns that failed at `maxPos`, in traversal order
(scanner.es6 l.215-235). -/
theorem C6_lastFailures (memo : Memo) :
    lastFailures memo = (maxFailPos memo, patFailsAt memo (maxFailPos memo)) ∧
    ∀ ke ∈ memoEntries memo, ∀ (p : Patt) (q : Nat) (v : RVal),
      ke = (Key.patt p, Entry.res (q, v)) → isFAIL v = true →
      q ≤ (lastFailures memo).1 := by
  have hflat := lastFailures_flat memo
  have hfold := lfStep_foldl (memoEntries memo) 0 []
  constructor
  · rw [hflat, hfold]
    unfold maxFailPos patFailsAt
    by_cases h0 : mfpL (memoEntries memo) 0 = 0
    · rw [if_pos h0, List.nil_append, h0]
    · rw [if_neg h0]
  · intro ke hke p q v hkeq hfail
    subst hkeq
    rw [hflat, hfold]
    show q ≤ mfpL (memoEntries memo) 0
    exact mfpL_mem (memoEntries memo) 0 p q v hke hfail

theorem C6_lastFailures_witness :
    ((Key.patt (.reg .number), Entry.res (2, RVal.FAIL)) ∈
        memoEntries [(0, [(Key.patt (.reg .number), Entry.res (2, RVal.FAIL))])] ∧
      isFAIL RVal.FAIL = true) ∧
    lastFailures [(0, [(Key.patt (.reg .number), Entry.res (2, RVal.FAIL))])] =
      (maxFailPos [(0, [(Key.patt (.reg .number), Entry.res (2, RVal.FAIL))])],
       patFailsAt [(0, [(Key.patt (.reg .number), Entry.res (2, RVal.FAIL))])]
         (maxFailPos [(0, [(Key.patt (.reg .number), Entry.res (2, RVal.FAIL))])])) ∧
    (2 : Nat) ≤
      (lastFailures [(0, [(Key.patt (.reg .number), Entry.res (2, RVal.FAIL))])]).1 :=
  ⟨⟨by simp [memoEntries], rfl⟩,
    (C6_lastFailures [(0, [(Key.patt (.reg .number), Entry.res (2, RVal.FAIL))])]).1,
    (C6_lastFailures [(0, [(Key.patt (.reg .number), Entry.res (2, RVal.FAIL))])]).2
      (Key.patt (.reg .number), Entry.res (2, RVal.FAIL)) (by simp [memoEntries])
      (.reg .number) 2 RVal.FAIL rfl rfl⟩

/-- Counterexample to claim C6 as frozen: an actual `run` of the builtin
IDENT rule over the stream `[" ", hole 0]` stores the procedure-keyed
FAIL result `(1, FAIL)` in the memo, yet `lastFailures` — which skips
procedure-keyed entries when computing the maximum — reports position 0,
which is NOT ≥ the `newPos` 1 of that recorded FAIL result. -/
theorem C6_counterexample :
    exec 9 true [] (⟨[.tok ⟨" ", ⟨0, 0, 1⟩⟩, .hole 0], []⟩ : Ctx)
        (.runK (.rule "IDENT") "IDENT" 0) freshState =
      .ok ((1, .FAIL),
        ⟨[(0, [(.rule "IDENT", .res (1, .FAIL))])], 0, 1⟩) ∧
    memoEntry [(0, [(Key.rule "IDENT", Entry.res (1, RVal.FAIL))])] 0 (.rule "IDENT") =
      some (.res (1, .FAIL)) ∧
    isFAIL (RVal.FAIL) = true ∧
    lastFailures [(0, [(Key.rule "IDENT", Entry.res (1, RVal.FAIL))])] = (0, []) ∧
    ¬ (1 : Nat) ≤ (lastFailures [(0, [(Key.rule "IDENT", Entry.res (1, RVal.FAIL))])]).1 :=
  ⟨rfl, rfl, rfl, rfl, by decide⟩

end QPG
